import Mathlib

/-!
# The 2D polygon kernel of OpenSCAD (`src/geometry/Polygon2d.cc`) and its modules (`src/module.h`)

A shallow embedding of `Outline2d` / `Polygon2d` and of the operations
`getBoundingBox`, `isEmpty`, `transform`, `resize`, `is_convex`, `area` and
`tessellate`, and of the queries `is_experimental` / `is_enabled` of
`AbstractModule`, followed by theorems about them.

Conventions of the embedding:

* `double` is modelled by `ℚ`: arithmetic is exact.  A division whose divisor is
  zero, and the extent of an empty bounding box, have no exact value; the
  operations that need one return `none`.
* the arithmetic of `transform`, `resize` and `area` is given a second time with the
  result of every operation passed through a rounding function (names ending in `R`):
  the identity gives the exact operations back, `fl64` gives IEEE 754 binary64.
* `std::vector` is modelled by `List`; an unchecked `operator[]` outside the
  vector and a `%` by zero are undefined behaviour and are modelled by `none`.
* container sizes and the `int` loop counters are natural numbers (vertex counts
  are taken to fit an `int`).
* the diagnostic channel written by `LOG` is an explicit list of messages that
  the mutating operations take and return together with the polygon.
-/

namespace OpenSCAD

/-! ## Data model -/

/-- The type `Vector2d` of `geometry/linalg.h`: a point or vector of the plane. -/
structure Vector2d where
  x : ℚ
  y : ℚ
deriving DecidableEq

/-- The type `Vector3d` of `geometry/linalg.h`. -/
structure Vector3d where
  x : ℚ
  y : ℚ
  z : ℚ
deriving DecidableEq

/-- Component access `v[k]` of a `Vector2d`. -/
def Vector2d.coeff (v : Vector2d) (k : Fin 2) : ℚ :=
  if k = 0 then v.x else v.y

/-- Component access `v[k]` of a `Vector3d`, for the two planar axes. -/
def Vector3d.coeff (v : Vector3d) (k : Fin 2) : ℚ :=
  if k = 0 then v.x else v.y

/-- Difference of two vectors, `a - b`. -/
def Vector2d.sub (a b : Vector2d) : Vector2d :=
  ⟨a.x - b.x, a.y - b.y⟩

/-- The type `Eigen::Matrix<bool, 2, 1>` of the `autosize` argument. -/
structure BoolVector2 where
  x : Bool
  y : Bool
deriving DecidableEq

/-- Component access `a[k]` of the `autosize` argument. -/
def BoolVector2.coeff (a : BoolVector2) (k : Fin 2) : Bool :=
  if k = 0 then a.x else a.y

/-- One closed contour: `Outline2d::vertices`. -/
structure Outline2d where
  vertices : List Vector2d
deriving DecidableEq

/-- The class `Polygon2d`: the outlines (`theoutlines`) and the `sanitized` flag. -/
structure Polygon2d where
  theoutlines : List Outline2d
  sanitized : Bool
deriving DecidableEq

/-- The constructor `Polygon2d::Polygon2d(Outline2d outline)`: one outline, sanitized. -/
def Polygon2d.ofOutline (outline : Outline2d) : Polygon2d :=
  ⟨[outline], true⟩

/-! ## `is_convex` -/

/-- The C++ expression `a % n` on non-negative operands; undefined for `n = 0`. -/
def cmod (a n : Nat) : Option Nat :=
  if n = 0 then none else some (a % n)

/-- The body of the loop of `Polygon2d::is_convex` up to the test: `zcross` for the
index `i`, with the three vertex reads `pts[i]`, `pts[(i + 1) % N]`,
`pts[(i + 2) % N]`. -/
def is_convex_zcross (pts : List Vector2d) (N i : Nat) : Option ℚ := do
  let i1 ← cmod (i + 1) N
  let i2 ← cmod (i + 2) N
  let p0 ← pts[i]?
  let p1 ← pts[i1]?
  let p2 ← pts[i2]?
  let d1 := p1.sub p0
  let d2 := p2.sub p1
  some (d1.x * d2.y - d1.y * d2.x)

/-- The loop `for (int i = 0; i < N; ++i)` of `Polygon2d::is_convex`, entered at
index `i` with `remaining = N - i` iterations to go; it leaves with `false` at the
first negative `zcross`. -/
def is_convex_loop (pts : List Vector2d) (N : Nat) : Nat → Nat → Option Bool
  | 0, _ => some true
  | remaining + 1, i => do
    let zcross ← is_convex_zcross pts N i
    if zcross < 0 then some false else is_convex_loop pts N remaining (i + 1)

/-- The method `Polygon2d::is_convex`. -/
def Polygon2d.is_convex (p : Polygon2d) : Option Bool :=
  if p.theoutlines.length > 1 then some false
  else if p.theoutlines.isEmpty then some true
  else do
    let o ← p.theoutlines[0]?
    let pts := o.vertices
    let N := pts.length
    is_convex_loop pts N N 0

/-- The cross product of the consecutive edge vectors `p[i+1] - p[i]` and
`p[i+2] - p[i+1]` of a closed vertex loop, the indices taken modulo the number of
vertices. -/
def cyclicCross (pts : List Vector2d) (i : Nat) : ℚ :=
  let N := pts.length
  let p0 := pts.getD (i % N) ⟨0, 0⟩
  let p1 := pts.getD ((i + 1) % N) ⟨0, 0⟩
  let p2 := pts.getD ((i + 2) % N) ⟨0, 0⟩
  (p1.x - p0.x) * (p2.y - p1.y) - (p1.y - p0.y) * (p2.x - p1.x)

/-! ## Bounding boxes -/

/-- Modelled from the spec: the type `BoundingBox` (an `Eigen::AlignedBox3d`, declared in
`geometry/linalg.h`, which is not among the sources), "extended monotonically; empty
when no points have been added".  The empty box is the neutral element of `extend`;
any other box is given by its `min` and `max` corners. -/
inductive BoundingBox where
  | empty : BoundingBox
  | box (min max : Vector3d) : BoundingBox
deriving DecidableEq

/-- Component-wise minimum of two points. -/
def Vector3d.cwiseMin (a b : Vector3d) : Vector3d :=
  ⟨min a.x b.x, min a.y b.y, min a.z b.z⟩

/-- Component-wise maximum of two points. -/
def Vector3d.cwiseMax (a b : Vector3d) : Vector3d :=
  ⟨max a.x b.x, max a.y b.y, max a.z b.z⟩

/-- Modelled from the spec: `BoundingBox::extend(point)`, the smallest box that holds the
box and the point. -/
def BoundingBox.extend : BoundingBox → Vector3d → BoundingBox
  | .empty, p => .box p p
  | .box mn mx, p => .box (mn.cwiseMin p) (mx.cwiseMax p)

/-- Modelled from the spec: `BoundingBox::extend(box)`, the smallest box that holds both
boxes; extending by the empty box changes nothing. -/
def BoundingBox.extendBox : BoundingBox → BoundingBox → BoundingBox
  | b, .empty => b
  | .empty, .box mn mx => .box mn mx
  | .box mn mx, .box mn2 mx2 => .box (mn.cwiseMin mn2) (mx.cwiseMax mx2)

/-- Modelled from the spec: `BoundingBox::sizes()`, the extents `max - min`; the empty
box has no extent in exact arithmetic. -/
def BoundingBox.sizes : BoundingBox → Option Vector3d
  | .empty => none
  | .box mn mx => some ⟨mx.x - mn.x, mx.y - mn.y, mx.z - mn.z⟩

/-- The method `Outline2d::getBoundingBox`. -/
def Outline2d.getBoundingBox (o : Outline2d) : BoundingBox :=
  o.vertices.foldl (fun bbox v => bbox.extend ⟨v.x, v.y, 0⟩) .empty

/-- The method `Polygon2d::getBoundingBox`. -/
def Polygon2d.getBoundingBox (p : Polygon2d) : BoundingBox :=
  p.theoutlines.foldl (fun bbox o => bbox.extendBox o.getBoundingBox) .empty

/-- The method `Polygon2d::isEmpty`. -/
def Polygon2d.isEmpty (p : Polygon2d) : Bool :=
  p.theoutlines.isEmpty

/-! ## The diagnostic channel -/

/-- Modelled from the spec: the levels of the diagnostic channel (`message_group` of
`utils/printutils.h`, which is not among the sources); the kernel needs "at minimum
a Warning level". -/
inductive message_group where
  | NONE : message_group
  | Error : message_group
  | Warning : message_group
deriving DecidableEq

/-- One message of the diagnostic channel: its level and its text. -/
structure Message where
  group : message_group
  msg : String
deriving DecidableEq

/-- Modelled from the spec: the `LOG` statement (`utils/printutils.h`), which emits one
message of the given level to the diagnostic channel. -/
def LOG (channel : List Message) (group : message_group) (msg : String) : List Message :=
  channel ++ [⟨group, msg⟩]

/-! ## `transform` and `resize` -/

/-- Modelled from the spec: the type `Transform2d` (`Eigen::Affine2d`, named in
`geometry/linalg.h`, which is not among the sources), a "3×3 homogeneous matrix", with
the entry of row `i` and column `j` called `mij`. -/
structure Transform2d where
  m00 : ℚ
  m01 : ℚ
  m02 : ℚ
  m10 : ℚ
  m11 : ℚ
  m12 : ℚ
  m20 : ℚ
  m21 : ℚ
  m22 : ℚ
deriving DecidableEq

/-- The value of `mat.matrix().determinant()`: the determinant of the 3×3 matrix. -/
def Transform2d.determinant (m : Transform2d) : ℚ :=
  m.m00 * (m.m11 * m.m22 - m.m12 * m.m21)
    - m.m01 * (m.m10 * m.m22 - m.m12 * m.m20)
    + m.m02 * (m.m10 * m.m21 - m.m11 * m.m20)

/-- The value of `mat * v` for a point `v` of the plane: the first two rows of the
matrix applied to `(v.x, v.y, 1)`. -/
def Transform2d.mulVec (m : Transform2d) (v : Vector2d) : Vector2d :=
  ⟨m.m00 * v.x + m.m01 * v.y + m.m02, m.m10 * v.x + m.m11 * v.y + m.m12⟩

/-- The method `Polygon2d::transform`, on the polygon and the diagnostic channel. -/
def Polygon2d.transform (p : Polygon2d) (mat : Transform2d) (channel : List Message) :
    Polygon2d × List Message :=
  if mat.determinant = 0 then
    (⟨[], p.sanitized⟩, LOG channel .Warning "Scaling a 2D object with 0 - removing object")
  else
    (⟨p.theoutlines.map (fun o => ⟨o.vertices.map (fun v => mat.mulVec v)⟩), p.sanitized⟩,
      channel)

/-- The quotient `a / b` of two `double`s in exact arithmetic, where `b` may itself be
without a value; it has none when `b` is zero. -/
def ddiv (a : ℚ) (b : Option ℚ) : Option ℚ :=
  match b with
  | none => none
  | some d => if d = 0 then none else some (a / d)

/-- The value of `bbox.sizes()[k]`. -/
def BoundingBox.size (bbox : BoundingBox) (k : Fin 2) : Option ℚ :=
  bbox.sizes.map (fun s => s.coeff k)

/-- The local `maxdim` of `Polygon2d::resize`. -/
def resize_maxdim (newsize : Vector2d) : Fin 2 :=
  if newsize.coeff 1 ≠ 0 ∧ newsize.coeff 1 > newsize.coeff 0 then 1 else 0

/-- The expression `target > 0 ? target / size : 1` that `Polygon2d::resize` uses for
both components of `scale` and for `autoscale`. -/
def resize_ratio (target : ℚ) (size : Option ℚ) : Option ℚ :=
  if target > 0 then ddiv target size else some 1

/-- The locals `scale`, `autoscale` and `newscale` of `Polygon2d::resize`, computed
from the bounding box; the result is `newscale`. -/
def resize_newscale (bbox : BoundingBox) (newsize : Vector2d) (autosize : BoolVector2) :
    Option Vector2d := do
  let maxdim := resize_maxdim newsize
  let scale0 ← resize_ratio (newsize.coeff 0) (bbox.size 0)
  let scale1 ← resize_ratio (newsize.coeff 1) (bbox.size 1)
  let scale : Vector2d := ⟨scale0, scale1⟩
  let autoscale ← resize_ratio (newsize.coeff maxdim) (bbox.size maxdim)
  some ⟨if autosize.coeff 0 = false ∨ newsize.coeff 0 > 0 then scale.coeff 0 else autoscale,
    if autosize.coeff 1 = false ∨ newsize.coeff 1 > 0 then scale.coeff 1 else autoscale⟩

/-- The matrix that `Polygon2d::resize` builds from `newscale`. -/
def resize_matrix (newscale : Vector2d) : Transform2d :=
  ⟨newscale.coeff 0, 0, 0,
   0, newscale.coeff 1, 0,
   0, 0, 1⟩

/-- The method `Polygon2d::resize`, on the polygon and the diagnostic channel. -/
def Polygon2d.resize (p : Polygon2d) (newsize : Vector2d) (autosize : BoolVector2)
    (channel : List Message) : Option (Polygon2d × List Message) := do
  let bbox := p.getBoundingBox
  let newscale ← resize_newscale bbox newsize autosize
  some (p.transform (resize_matrix newscale) channel)

/-! ## `tessellate` and `area` -/

/-- Modelled from the spec: the type `PolySet` (`geometry/PolySet.h`, which is not among
the sources), "a concrete triangulated mesh" with a "vertex list" and "index-triples
(triangles)". -/
structure PolySet where
  vertices : List Vector3d
  indices : List (List Nat)
deriving DecidableEq

/-- The values of `RenderSettings::inst()->backend3D`. -/
inductive RenderBackend3D where
  | CGALBackend : RenderBackend3D
  | ManifoldBackend : RenderBackend3D
deriving DecidableEq

/-- What `Polygon2d::tessellate` reads from outside the polygon: whether the
mesh-boolean triangulator is compiled in (`ENABLE_MANIFOLD` and
`USE_MANIFOLD_TRIANGULATOR`), the configured `backend3D`, and the two backends'
`createTriangulatedPolySetFromPolygon2d`, each of which may return no mesh. -/
structure TessellationEnv where
  manifoldTriangulator : Bool
  backend3D : RenderBackend3D
  manifoldCreate : Polygon2d → Option PolySet
  cgalCreate : Polygon2d → Option PolySet

/-- The method `Polygon2d::tessellate`. -/
def Polygon2d.tessellate (p : Polygon2d) (env : TessellationEnv) : Option PolySet :=
  if env.manifoldTriangulator = true ∧ env.backend3D = .ManifoldBackend then
    env.manifoldCreate p
  else
    env.cgalCreate p

/-- One iteration of the loop of `Polygon2d::area`: the three vertex reads for the
face `poly` and the new value of the accumulator `area`. -/
def area_step (ps : PolySet) (area : ℚ) (poly : List Nat) : Option ℚ := do
  let i1 ← poly[0]?
  let i2 ← poly[1]?
  let i3 ← poly[2]?
  let v1 ← ps.vertices[i1]?
  let v2 ← ps.vertices[i2]?
  let v3 ← ps.vertices[i3]?
  some (area + (1 / 2) * (v1.x * (v2.y - v3.y) + v2.x * (v3.y - v1.y) + v3.x * (v1.y - v2.y)))

/-- The method `Polygon2d::area`. -/
def Polygon2d.area (p : Polygon2d) (env : TessellationEnv) : Option ℚ :=
  match p.tessellate env with
  | none => some 0
  | some ps => ps.indices.foldlM (area_step ps) 0

/-- The three corners of a face of a mesh, when the face has three indices and each
names a vertex of the mesh. -/
def PolySet.triangle (ps : PolySet) (poly : List Nat) :
    Option (Vector3d × Vector3d × Vector3d) := do
  let i1 ← poly[0]?
  let i2 ← poly[1]?
  let i3 ← poly[2]?
  let v1 ← ps.vertices[i1]?
  let v2 ← ps.vertices[i2]?
  let v3 ← ps.vertices[i3]?
  some (v1, v2, v3)

/-- The signed area `0.5 * (v1.x*(v2.y - v3.y) + v2.x*(v3.y - v1.y) + v3.x*(v1.y - v2.y))`
of a triangle. -/
def signedTriangleArea (t : Vector3d × Vector3d × Vector3d) : ℚ :=
  (1 / 2) * (t.1.x * (t.2.1.y - t.2.2.y) + t.2.1.x * (t.2.2.y - t.1.y)
    + t.2.2.x * (t.1.y - t.2.1.y))

/-- The vertex at position `j` of the outline at position `i`, when there is one. -/
def Polygon2d.vertexAt (p : Polygon2d) (i j : Nat) : Option Vector2d :=
  p.theoutlines[i]?.bind (fun o => o.vertices[j]?)

/-- The number of vertices of the outline at position `i`, when there is one. -/
def Polygon2d.vertexCount (p : Polygon2d) (i : Nat) : Option Nat :=
  p.theoutlines[i]?.map (fun o => o.vertices.length)

/-- The transform that scales both axes by `k`. -/
def Transform2d.scaling (k : ℚ) : Transform2d :=
  ⟨k, 0, 0,
   0, k, 0,
   0, 0, 1⟩

/-- The outline of the axis-aligned square with corner `(0, 0)` and side `a`, listed
counter-clockwise. -/
def squareOutline (a : ℚ) : Outline2d :=
  ⟨[⟨0, 0⟩, ⟨a, 0⟩, ⟨a, a⟩, ⟨0, a⟩]⟩

/-- The 3D point `(v.x, v.y, 0)` that `Outline2d::getBoundingBox` adds for a vertex. -/
def Vector2d.lift (v : Vector2d) : Vector3d :=
  ⟨v.x, v.y, 0⟩

/-- All vertices of all outlines of a polygon, as 3D points. -/
def Polygon2d.points (p : Polygon2d) : List Vector3d :=
  p.theoutlines.flatMap (fun o => o.vertices.map Vector2d.lift)

/-- The box holds the point, boundary included (`BoundingBox::contains`). -/
def BoundingBox.contains : BoundingBox → Vector3d → Prop
  | .empty, _ => False
  | .box mn mx, q =>
    mn.x ≤ q.x ∧ q.x ≤ mx.x ∧ mn.y ≤ q.y ∧ q.y ≤ mx.y ∧ mn.z ≤ q.z ∧ q.z ≤ mx.z

/-- The number `m` is the least element of the list. -/
def IsListMin (m : ℚ) (l : List ℚ) : Prop :=
  m ∈ l ∧ ∀ a ∈ l, m ≤ a

/-- The number `m` is the greatest element of the list. -/
def IsListMax (m : ℚ) (l : List ℚ) : Prop :=
  m ∈ l ∧ ∀ a ∈ l, a ≤ m

/-- The box is the hull of the points: empty when there is no point, and otherwise
each coordinate of its `min` (`max`) corner is the least (greatest) value of that
coordinate among the points. -/
def BoundingBox.IsHull : BoundingBox → List Vector3d → Prop
  | .empty, pts => pts = []
  | .box mn mx, pts =>
    IsListMin mn.x (pts.map (fun q => q.x)) ∧ IsListMax mx.x (pts.map (fun q => q.x)) ∧
    IsListMin mn.y (pts.map (fun q => q.y)) ∧ IsListMax mx.y (pts.map (fun q => q.y)) ∧
    IsListMin mn.z (pts.map (fun q => q.z)) ∧ IsListMax mx.z (pts.map (fun q => q.z))

/-- The axis that is not `k`. -/
def otherAxis (k : Fin 2) : Fin 2 :=
  if k = 0 then 1 else 0

/-- The polygon with every vertex `(x, y)` replaced by `(a * x, c * y)`. -/
def Polygon2d.scaled (p : Polygon2d) (a c : ℚ) : Polygon2d :=
  ⟨p.theoutlines.map (fun o => ⟨o.vertices.map (fun v => ⟨a * v.x, c * v.y⟩)⟩), p.sanitized⟩

/-- The triangles named by a list of faces of a mesh, when every face names one. -/
def PolySet.resolve (ps : PolySet) : List (List Nat) → Option (List (Vector3d × Vector3d × Vector3d))
  | [] => some []
  | poly :: rest =>
    match ps.triangle poly, PolySet.resolve ps rest with
    | some t, some ts => some (t :: ts)
    | _, _ => none

/-- The triangles `(v1, v2, v3)` of a mesh, when every face names three of its vertices. -/
def PolySet.triangles (ps : PolySet) : Option (List (Vector3d × Vector3d × Vector3d)) :=
  ps.resolve ps.indices

/-- A tessellation environment without the mesh-boolean triangulator whose remaining
backend is `create`. -/
def TessellationEnv.ofBackend (create : Polygon2d → Option PolySet) : TessellationEnv :=
  ⟨false, RenderBackend3D.CGALBackend, fun _ => none, create⟩

/-- A backend that keeps the vertices of the polygon and cuts a quadrilateral along
the diagonal from vertex 0 to vertex 2. -/
def fanBackend (p : Polygon2d) : Option PolySet :=
  some ⟨p.points, [[0, 1, 2], [0, 2, 3]]⟩

/-! ## Modules (`src/module.h`) -/

/-- Modelled from the spec: a feature flag (`Feature` of `feature.h`, which is not among
the sources), known to the module by its identity only. -/
structure Feature where
  id : Nat
deriving DecidableEq

/-- Modelled from the spec: the state of the feature-flag provider, which answers the
single query "is this flag currently enabled". -/
def FeatureState : Type :=
  Feature → Bool

/-- Modelled from the spec: `Feature::is_enabled()`, the provider's current answer for the
flag. -/
def Feature.is_enabled (f : Feature) (state : FeatureState) : Bool :=
  state f

/-- Modelled from the spec: the provider state after the flag `f` is switched to `b`. -/
def FeatureState.set (state : FeatureState) (f : Feature) (b : Bool) : FeatureState :=
  fun g => if g = f then b else state g

/-- The class `AbstractModule`: its member `feature`, a pointer that may be null. -/
structure AbstractModule where
  feature : Option Feature
deriving DecidableEq

/-- The constructor `AbstractModule()`. -/
def AbstractModule.new : AbstractModule :=
  ⟨none⟩

/-- The constructor `AbstractModule(const Feature& feature)`. -/
def AbstractModule.ofFeature (feature : Feature) : AbstractModule :=
  ⟨some feature⟩

/-- The constructor `AbstractModule(const Feature* feature)`. -/
def AbstractModule.ofPointer (feature : Option Feature) : AbstractModule :=
  ⟨feature⟩

/-- The method `AbstractModule::is_experimental`. -/
def AbstractModule.is_experimental (m : AbstractModule) : Bool :=
  m.feature != none

/-- The method `AbstractModule::is_enabled`, under the current provider state. -/
def AbstractModule.is_enabled (m : AbstractModule) (state : FeatureState) : Bool :=
  match m.feature with
  | none => true
  | some f => f.is_enabled state

/-- The class `BuiltinModule`: an `AbstractModule` (it overrides neither query) together
with the wrapped instantiation function, which the queries do not read. -/
structure BuiltinModule where
  toAbstractModule : AbstractModule
deriving DecidableEq

/-- Modelled from the spec: the constructors of `BuiltinModule` (defined outside the
sources), which take `const Feature* feature = nullptr` and associate it with the
module. -/
def BuiltinModule.new (feature : Option Feature) : BuiltinModule :=
  ⟨AbstractModule.ofPointer feature⟩

/-! ## Helpers for the statements -/

/-- The two triangulation backends between which `Polygon2d::tessellate` chooses. -/
inductive TriangulationBackend where
  | Manifold : TriangulationBackend
  | CGAL : TriangulationBackend
deriving DecidableEq

/-- The backend named by the render-backend configuration: the mesh-boolean one when
its triangulator is compiled in and the configuration selects it, the
constraint-triangulation one otherwise. -/
def selectedBackend (manifoldTriangulator : Bool) (backend3D : RenderBackend3D) :
    TriangulationBackend :=
  if manifoldTriangulator = true ∧ backend3D = RenderBackend3D.ManifoldBackend then
    TriangulationBackend.Manifold
  else
    TriangulationBackend.CGAL

/-- The function `createTriangulatedPolySetFromPolygon2d` of a backend. -/
def TessellationEnv.create (env : TessellationEnv) :
    TriangulationBackend → Polygon2d → Option PolySet
  | .Manifold => env.manifoldCreate
  | .CGAL => env.cgalCreate

/-- The last row of the matrix is `0 0 1`: the transform is an affine map. -/
def Transform2d.IsAffine (m : Transform2d) : Prop :=
  m.m20 = 0 ∧ m.m21 = 0 ∧ m.m22 = 1

/-- The product `b * a` of two transforms: the product of their 3×3 matrices, which
applies `a` first. -/
def Transform2d.mul (b a : Transform2d) : Transform2d :=
  ⟨b.m00 * a.m00 + b.m01 * a.m10 + b.m02 * a.m20,
   b.m00 * a.m01 + b.m01 * a.m11 + b.m02 * a.m21,
   b.m00 * a.m02 + b.m01 * a.m12 + b.m02 * a.m22,
   b.m10 * a.m00 + b.m11 * a.m10 + b.m12 * a.m20,
   b.m10 * a.m01 + b.m11 * a.m11 + b.m12 * a.m21,
   b.m10 * a.m02 + b.m11 * a.m12 + b.m12 * a.m22,
   b.m20 * a.m00 + b.m21 * a.m10 + b.m22 * a.m20,
   b.m20 * a.m01 + b.m21 * a.m11 + b.m22 * a.m21,
   b.m20 * a.m02 + b.m21 * a.m12 + b.m22 * a.m22⟩

/-- The transform that moves every point by `(tx, ty)`. -/
def Transform2d.translation (tx ty : ℚ) : Transform2d :=
  ⟨1, 0, tx,
   0, 1, ty,
   0, 0, 1⟩

/-! ## Rounded `double` arithmetic

The definitions above take every `double` operation at its exact value.  The ones of
this section take the same operations of `Polygon2d.cc` with the result of each one
passed through a rounding function `rnd`; with `rnd = id` they are the exact ones, with
`rnd = fl64` they are the operations of IEEE 754 binary64 (round to nearest, ties to
even, gradual underflow; results of magnitude `2^1024` or more, which a `double` turns
into an infinity, are outside the model). -/

/-- The number of binary digits of `n`, counted with `fuel` steps. -/
def bitLengthAux : Nat → Nat → Nat
  | 0, _ => 0
  | fuel + 1, n => if n = 0 then 0 else bitLengthAux fuel (n / 2) + 1

/-- The number of binary digits of `n`: `0` for `0`, and otherwise the `k` with
`2^(k-1) ≤ n < 2^k`. -/
def bitLength (n : Nat) : Nat :=
  bitLengthAux n n

/-- The integer nearest to `p / q`, the even one of the two when `p / q` lies halfway. -/
def roundNearestEven (p q : Nat) : Nat :=
  let k := p / q
  let r := p % q
  if 2 * r < q then k else if q < 2 * r then k + 1 else if k % 2 = 0 then k else k + 1

/-- The exponent `e` with `2^e ≤ n / d < 2^(e+1)`, for positive `n` and `d`. -/
def floorLog2 (n d : Nat) : Int :=
  let a := bitLength n - 1
  let b := bitLength d - 1
  if d * 2 ^ a ≤ n * 2 ^ b then (a : Int) - b else (a : Int) - b - 1

/-- The binary64 number nearest to the positive rational `n / d`: a multiple of
`2^s`, where `s` is the exponent of the last of 53 significant bits and at least
`-1074`. -/
def roundMagnitude (n d : Nat) : ℚ :=
  let e := floorLog2 n d
  let s := max (e - 52) (-1074)
  if 0 ≤ s then
    mkRat ((roundNearestEven n (d * 2 ^ s.toNat) * 2 ^ s.toNat : Nat) : Int) 1
  else
    mkRat ((roundNearestEven (n * 2 ^ (-s).toNat) d : Nat) : Int) (2 ^ (-s).toNat)

/-- The binary64 rounding of a rational number. -/
def fl64 (x : ℚ) : ℚ :=
  if x.num = 0 then 0
  else if x.num < 0 then -roundMagnitude x.num.natAbs x.den
  else roundMagnitude x.num.natAbs x.den

/-- The `double` sum `a + b`. -/
def radd (rnd : ℚ → ℚ) (a b : ℚ) : ℚ :=
  rnd (a + b)

/-- The `double` difference `a - b`. -/
def rsub (rnd : ℚ → ℚ) (a b : ℚ) : ℚ :=
  rnd (a - b)

/-- The `double` product `a * b`. -/
def rmul (rnd : ℚ → ℚ) (a b : ℚ) : ℚ :=
  rnd (a * b)

/-- The `double` quotient `a / b`, where `b` may itself be without a value; it has none
when `b` is zero. -/
def rdiv (rnd : ℚ → ℚ) (a : ℚ) (b : Option ℚ) : Option ℚ :=
  match b with
  | none => none
  | some d => if d = 0 then none else some (rnd (a / d))

/-- The value of `mat.matrix().determinant()` with rounded operations, expanded along
the first row. -/
def Transform2d.determinantR (rnd : ℚ → ℚ) (m : Transform2d) : ℚ :=
  radd rnd
    (rsub rnd
      (rmul rnd m.m00 (rsub rnd (rmul rnd m.m11 m.m22) (rmul rnd m.m12 m.m21)))
      (rmul rnd m.m01 (rsub rnd (rmul rnd m.m10 m.m22) (rmul rnd m.m12 m.m20))))
    (rmul rnd m.m02 (rsub rnd (rmul rnd m.m10 m.m21) (rmul rnd m.m11 m.m20)))

/-- The value of `mat * v` with rounded operations. -/
def Transform2d.mulVecR (rnd : ℚ → ℚ) (m : Transform2d) (v : Vector2d) : Vector2d :=
  ⟨radd rnd (radd rnd (rmul rnd m.m00 v.x) (rmul rnd m.m01 v.y)) m.m02,
   radd rnd (radd rnd (rmul rnd m.m10 v.x) (rmul rnd m.m11 v.y)) m.m12⟩

/-- The method `Polygon2d::transform` with rounded operations. -/
def Polygon2d.transformR (rnd : ℚ → ℚ) (p : Polygon2d) (mat : Transform2d)
    (channel : List Message) : Polygon2d × List Message :=
  if mat.determinantR rnd = 0 then
    (⟨[], p.sanitized⟩, LOG channel .Warning "Scaling a 2D object with 0 - removing object")
  else
    (⟨p.theoutlines.map (fun o => ⟨o.vertices.map (fun v => mat.mulVecR rnd v)⟩), p.sanitized⟩,
      channel)

/-- The extents `max - min` of a box (`BoundingBox::sizes()`) with rounded operations. -/
def BoundingBox.sizesR (rnd : ℚ → ℚ) : BoundingBox → Option Vector3d
  | .empty => none
  | .box mn mx => some ⟨rsub rnd mx.x mn.x, rsub rnd mx.y mn.y, rsub rnd mx.z mn.z⟩

/-- The value of `bbox.sizes()[k]` with rounded operations. -/
def BoundingBox.sizeR (rnd : ℚ → ℚ) (bbox : BoundingBox) (k : Fin 2) : Option ℚ :=
  (bbox.sizesR rnd).map (fun s => s.coeff k)

/-- The expression `target > 0 ? target / size : 1` of `Polygon2d::resize` with rounded
operations. -/
def resize_ratioR (rnd : ℚ → ℚ) (target : ℚ) (size : Option ℚ) : Option ℚ :=
  if target > 0 then rdiv rnd target size else some 1

/-- The locals `scale`, `autoscale` and `newscale` of `Polygon2d::resize` with rounded
operations; the result is `newscale`. -/
def resize_newscaleR (rnd : ℚ → ℚ) (bbox : BoundingBox) (newsize : Vector2d)
    (autosize : BoolVector2) : Option Vector2d := do
  let maxdim := resize_maxdim newsize
  let scale0 ← resize_ratioR rnd (newsize.coeff 0) (bbox.sizeR rnd 0)
  let scale1 ← resize_ratioR rnd (newsize.coeff 1) (bbox.sizeR rnd 1)
  let scale : Vector2d := ⟨scale0, scale1⟩
  let autoscale ← resize_ratioR rnd (newsize.coeff maxdim) (bbox.sizeR rnd maxdim)
  some ⟨if autosize.coeff 0 = false ∨ newsize.coeff 0 > 0 then scale.coeff 0 else autoscale,
    if autosize.coeff 1 = false ∨ newsize.coeff 1 > 0 then scale.coeff 1 else autoscale⟩

/-- The method `Polygon2d::resize` with rounded operations. -/
def Polygon2d.resizeR (rnd : ℚ → ℚ) (p : Polygon2d) (newsize : Vector2d)
    (autosize : BoolVector2) (channel : List Message) : Option (Polygon2d × List Message) := do
  let bbox := p.getBoundingBox
  let newscale ← resize_newscaleR rnd bbox newsize autosize
  some (p.transformR rnd (resize_matrix newscale) channel)

/-- The message that `Polygon2d::transform` logs when it removes the polygon. -/
def removalWarning : Message :=
  ⟨message_group.Warning, "Scaling a 2D object with 0 - removing object"⟩

/-! ## Theorems -/

theorem is_convex_zcross_eq (pts : List Vector2d) (i : Nat) (hi : i < pts.length) :
    is_convex_zcross pts pts.length i = some (cyclicCross pts i) := by
  have hN : pts.length ≠ 0 := by omega
  have h1 : (i + 1) % pts.length < pts.length := Nat.mod_lt _ (by omega)
  have h2 : (i + 2) % pts.length < pts.length := Nat.mod_lt _ (by omega)
  simp [is_convex_zcross, cmod, hN, cyclicCross, Vector2d.sub, List.getElem?_eq_getElem, hi, h1,
    h2, List.getD_eq_getElem?_getD, Nat.mod_eq_of_lt hi]

theorem is_convex_loop_eq (pts : List Vector2d) (remaining i : Nat)
    (h : i + remaining = pts.length) :
    is_convex_loop pts pts.length remaining i
      = some (decide (∀ j, i ≤ j → j < pts.length → 0 ≤ cyclicCross pts j)) := by
  induction remaining generalizing i with
  | zero =>
    have : ∀ j, i ≤ j → j < pts.length → 0 ≤ cyclicCross pts j := by
      intro j h1 h2; omega
    simp only [is_convex_loop]
    exact congrArg some (decide_eq_true this).symm
  | succ k ih =>
    have hi : i < pts.length := by omega
    simp only [is_convex_loop, is_convex_zcross_eq pts i hi, Option.bind_eq_bind,
      Option.some_bind]
    by_cases hz : cyclicCross pts i < 0
    · have : ¬ ∀ j, i ≤ j → j < pts.length → 0 ≤ cyclicCross pts j := by
        intro hall
        exact absurd (hall i le_rfl hi) (not_le.mpr hz)
      simp [hz, this]
    · rw [if_neg hz, ih (i + 1) (by omega)]
      congr 1
      apply decide_eq_decide.mpr
      constructor
      · intro hall j hj1 hj2
        rcases Nat.eq_or_lt_of_le hj1 with heq | hlt
        · subst heq; exact not_lt.mp hz
        · exact hall j hlt hj2
      · intro hall j hj1 hj2
        exact hall j (by omega) hj2

theorem is_convex_single (o : Outline2d) (s : Bool) :
    Polygon2d.is_convex ⟨[o], s⟩
      = some (decide (∀ j, j < o.vertices.length → 0 ≤ cyclicCross o.vertices j)) := by
  simp [Polygon2d.is_convex, is_convex_loop_eq o.vertices o.vertices.length 0 (by simp)]

/-! ### Convexity -/

/-- C1: for a polygon with exactly one outline, `is_convex()` returns true if and only
if no cyclic cross product of consecutive edge vectors is negative; in particular it
returns true when every turn is strictly to the left, and false as soon as one turn
is strictly clockwise. -/
theorem is_convex_iff_no_clockwise_turn (o : Outline2d) (s : Bool) :
    (Polygon2d.is_convex ⟨[o], s⟩ = some true ↔
      ∀ i : Fin o.vertices.length, ¬ cyclicCross o.vertices i < 0) ∧
    ((∀ i : Fin o.vertices.length, 0 < cyclicCross o.vertices i) →
      Polygon2d.is_convex ⟨[o], s⟩ = some true) ∧
    ((∃ i : Fin o.vertices.length, cyclicCross o.vertices i < 0) →
      Polygon2d.is_convex ⟨[o], s⟩ = some false) := by
  rw [is_convex_single]
  refine ⟨?_, ?_, ?_⟩
  · simp only [Option.some.injEq, decide_eq_true_eq, not_lt]
    exact ⟨fun h i => h i i.isLt, fun h j hj => h ⟨j, hj⟩⟩
  · intro h
    simp only [Option.some.injEq, decide_eq_true_eq]
    exact fun j hj => le_of_lt (h ⟨j, hj⟩)
  · rintro ⟨i, hi⟩
    simp only [Option.some.injEq, decide_eq_false_iff_not]
    exact fun h => absurd (h i i.isLt) (not_le.mpr hi)

/-- C2: a polygon with two or more outlines is never convex, whatever its vertices are,
and the polygon with zero outlines is convex. -/
theorem is_convex_outline_count (p : Polygon2d) :
    (2 ≤ p.theoutlines.length → p.is_convex = some false) ∧
    (p.theoutlines.length = 0 → p.is_convex = some true) := by
  constructor
  · intro h
    have h1 : p.theoutlines.length > 1 := h
    simp [Polygon2d.is_convex, h1]
  · intro h
    have h0 : p.theoutlines = [] := List.length_eq_zero.mp h
    simp [Polygon2d.is_convex, h0]

/-- A square and a triangle as two outlines are not convex; no outline at all is. -/
theorem is_convex_outline_count_witness :
    Polygon2d.is_convex
        ⟨[⟨[⟨0, 0⟩, ⟨1, 0⟩, ⟨1, 1⟩, ⟨0, 1⟩]⟩, ⟨[⟨2, 0⟩, ⟨3, 0⟩, ⟨3, 1⟩]⟩], true⟩ = some false ∧
      Polygon2d.is_convex ⟨[], true⟩ = some true :=
  ⟨(is_convex_outline_count _).1 (by decide), (is_convex_outline_count _).2 (by decide)⟩

/-! ### Transform -/

theorem transform_vertexAt (p : Polygon2d) (mat : Transform2d) (channel : List Message)
    (h : mat.determinant ≠ 0) (i j : Nat) :
    (p.transform mat channel).1.vertexAt i j = (p.vertexAt i j).map (fun v => mat.mulVec v) := by
  simp only [Polygon2d.transform, if_neg h, Polygon2d.vertexAt, List.getElem?_map]
  cases p.theoutlines[i]? with
  | none => rfl
  | some o => simp [List.getElem?_map]

theorem transform_vertexCount (p : Polygon2d) (mat : Transform2d) (channel : List Message)
    (h : mat.determinant ≠ 0) (i : Nat) :
    (p.transform mat channel).1.vertexCount i = p.vertexCount i := by
  simp only [Polygon2d.transform, if_neg h, Polygon2d.vertexCount, List.getElem?_map]
  cases p.theoutlines[i]? with
  | none => rfl
  | some o => simp

theorem scaling_determinant (k : ℚ) : (Transform2d.scaling k).determinant = k * k := by
  simp [Transform2d.scaling, Transform2d.determinant]

theorem scaling_mulVec (k : ℚ) (v : Vector2d) :
    (Transform2d.scaling k).mulVec v = ⟨k * v.x, k * v.y⟩ := by
  simp [Transform2d.scaling, Transform2d.mulVec]

/-- C3: for every polygon and every transform whose matrix has determinant exactly 0,
`transform(mat)` returns, leaves the polygon with zero outlines (`isEmpty()` is true),
and appends exactly one Warning-level message to the diagnostic channel. -/
theorem transform_zero_determinant (p : Polygon2d) (mat : Transform2d)
    (channel : List Message) (h : mat.determinant = 0) :
    (p.transform mat channel).1.theoutlines = [] ∧
    (p.transform mat channel).1.isEmpty = true ∧
    ∃ m : Message, m.group = message_group.Warning ∧
      (p.transform mat channel).2 = channel ++ [m] := by
  have hT : p.transform mat channel
      = (⟨[], p.sanitized⟩,
          channel ++ [⟨message_group.Warning, "Scaling a 2D object with 0 - removing object"⟩]) := by
    simp only [Polygon2d.transform, if_pos h, LOG]
  rw [hT]
  exact ⟨rfl, rfl, _, rfl, rfl⟩

/-- Scaling the unit square by 0 leaves no outline and one warning. -/
theorem transform_zero_determinant_witness :
    ((Polygon2d.ofOutline (squareOutline 1)).transform (Transform2d.scaling 0) []).1.theoutlines
        = [] ∧
    ((Polygon2d.ofOutline (squareOutline 1)).transform (Transform2d.scaling 0) []).1.isEmpty
        = true ∧
    ∃ m : Message, m.group = message_group.Warning ∧
      ((Polygon2d.ofOutline (squareOutline 1)).transform (Transform2d.scaling 0) []).2
        = [] ++ [m] :=
  transform_zero_determinant (Polygon2d.ofOutline (squareOutline 1)) (Transform2d.scaling 0) []
    (by simp [scaling_determinant])

/-- C4: for every polygon and every transform with non-zero determinant,
`transform(mat)` replaces each vertex `v` by `mat * v` at the same position, keeps the
number of outlines and the number of vertices of each outline, and emits no warning;
the scale-by-2 transform maps every vertex `(x, y)` to `(2x, 2y)`. -/
theorem transform_nonzero_determinant (p : Polygon2d) (mat : Transform2d)
    (channel : List Message) (h : mat.determinant ≠ 0) :
    (∀ i j, (p.transform mat channel).1.vertexAt i j
        = (p.vertexAt i j).map (fun v => mat.mulVec v)) ∧
    (p.transform mat channel).1.theoutlines.length = p.theoutlines.length ∧
    (∀ i, (p.transform mat channel).1.vertexCount i = p.vertexCount i) ∧
    (p.transform mat channel).2 = channel ∧
    (∀ i j, (p.transform (Transform2d.scaling 2) channel).1.vertexAt i j
        = (p.vertexAt i j).map (fun v => ⟨2 * v.x, 2 * v.y⟩)) := by
  refine ⟨transform_vertexAt p mat channel h, ?_, transform_vertexCount p mat channel h, ?_, ?_⟩
  · simp [Polygon2d.transform, if_neg h]
  · simp [Polygon2d.transform, if_neg h]
  · intro i j
    have h2 : (Transform2d.scaling 2).determinant ≠ 0 := by
      rw [scaling_determinant]; norm_num
    rw [transform_vertexAt p _ channel h2 i j]
    simp only [scaling_mulVec]

/-- Scaling the unit square by 2: the vertex `(1, 1)` at position 2 becomes `(2, 2)`. -/
theorem transform_nonzero_determinant_witness :
    ((Polygon2d.ofOutline (squareOutline 1)).transform (Transform2d.scaling 2) []).1.vertexAt 0 2
        = some ⟨2, 2⟩ ∧
    ((Polygon2d.ofOutline (squareOutline 1)).transform (Transform2d.scaling 2) []).1.vertexCount 0
        = some 4 ∧
    ((Polygon2d.ofOutline (squareOutline 1)).transform (Transform2d.scaling 2) []).2 = [] := by
  have h2 : (Transform2d.scaling 2).determinant ≠ 0 := by
    rw [scaling_determinant]; norm_num
  have key := transform_nonzero_determinant (Polygon2d.ofOutline (squareOutline 1))
    (Transform2d.scaling 2) [] h2
  refine ⟨?_, ?_, key.2.2.2.1⟩
  · rw [key.1 0 2]
    simp [Polygon2d.vertexAt, Polygon2d.ofOutline, squareOutline, scaling_mulVec]
  · rw [key.2.2.1 0]
    simp [Polygon2d.vertexCount, Polygon2d.ofOutline, squareOutline]

/-! ### Bounding box -/

theorem isListMin_singleton (a : ℚ) : IsListMin a [a] := by
  simp [IsListMin]

theorem isListMax_singleton (a : ℚ) : IsListMax a [a] := by
  simp [IsListMax]

theorem isListMin_append {m n : ℚ} {l k : List ℚ} (hl : IsListMin m l) (hk : IsListMin n k) :
    IsListMin (min m n) (l ++ k) := by
  obtain ⟨hm, hml⟩ := hl
  obtain ⟨hn, hnk⟩ := hk
  constructor
  · rcases le_total m n with h | h
    · rw [min_eq_left h]; exact List.mem_append_left _ hm
    · rw [min_eq_right h]; exact List.mem_append_right _ hn
  · intro a ha
    rcases List.mem_append.mp ha with h | h
    · exact le_trans (min_le_left _ _) (hml a h)
    · exact le_trans (min_le_right _ _) (hnk a h)

theorem isListMax_append {m n : ℚ} {l k : List ℚ} (hl : IsListMax m l) (hk : IsListMax n k) :
    IsListMax (max m n) (l ++ k) := by
  obtain ⟨hm, hml⟩ := hl
  obtain ⟨hn, hnk⟩ := hk
  constructor
  · rcases le_total m n with h | h
    · rw [max_eq_right h]; exact List.mem_append_right _ hn
    · rw [max_eq_left h]; exact List.mem_append_left _ hm
  · intro a ha
    rcases List.mem_append.mp ha with h | h
    · exact le_trans (hml a h) (le_max_left _ _)
    · exact le_trans (hnk a h) (le_max_right _ _)

theorem isHull_extendBox {b c : BoundingBox} {S T : List Vector3d}
    (hb : b.IsHull S) (hc : c.IsHull T) : (b.extendBox c).IsHull (S ++ T) := by
  cases c with
  | empty =>
    have hT : T = [] := hc
    subst hT
    cases b <;> simpa [BoundingBox.extendBox] using hb
  | box mn2 mx2 =>
    cases b with
    | empty =>
      have hS : S = [] := hb
      subst hS
      simpa [BoundingBox.extendBox] using hc
    | box mn mx =>
      obtain ⟨h1, h2, h3, h4, h5, h6⟩ := hb
      obtain ⟨k1, k2, k3, k4, k5, k6⟩ := hc
      simp only [BoundingBox.extendBox, BoundingBox.IsHull, List.map_append,
        Vector3d.cwiseMin, Vector3d.cwiseMax]
      exact ⟨isListMin_append h1 k1, isListMax_append h2 k2, isListMin_append h3 k3,
        isListMax_append h4 k4, isListMin_append h5 k5, isListMax_append h6 k6⟩

theorem isHull_singleton (q : Vector3d) : (BoundingBox.box q q).IsHull [q] := by
  simp [BoundingBox.IsHull, isListMin_singleton, isListMax_singleton]

theorem extend_eq_extendBox (b : BoundingBox) (q : Vector3d) :
    b.extend q = b.extendBox (.box q q) := by
  cases b <;> rfl

theorem isHull_extend {b : BoundingBox} {S : List Vector3d} (hb : b.IsHull S) (q : Vector3d) :
    (b.extend q).IsHull (S ++ [q]) := by
  rw [extend_eq_extendBox]
  exact isHull_extendBox hb (isHull_singleton q)

theorem isHull_foldl_extend (vs : List Vector2d) (b : BoundingBox) (S : List Vector3d)
    (hb : b.IsHull S) :
    (vs.foldl (fun bbox v => bbox.extend ⟨v.x, v.y, 0⟩) b).IsHull
      (S ++ vs.map Vector2d.lift) := by
  induction vs generalizing b S with
  | nil => simpa using hb
  | cons v vs ih =>
    have h := ih (b.extend ⟨v.x, v.y, 0⟩) (S ++ [v.lift]) (isHull_extend hb _)
    simpa [List.foldl_cons, List.append_assoc] using h

theorem isHull_outline (o : Outline2d) :
    o.getBoundingBox.IsHull (o.vertices.map Vector2d.lift) := by
  have h := isHull_foldl_extend o.vertices .empty [] rfl
  simpa [Outline2d.getBoundingBox] using h

theorem isHull_foldl_extendBox (os : List Outline2d) (b : BoundingBox) (S : List Vector3d)
    (hb : b.IsHull S) :
    (os.foldl (fun bbox o => bbox.extendBox o.getBoundingBox) b).IsHull
      (S ++ os.flatMap (fun o => o.vertices.map Vector2d.lift)) := by
  induction os generalizing b S with
  | nil => simpa using hb
  | cons o os ih =>
    have h := ih (b.extendBox o.getBoundingBox) (S ++ o.vertices.map Vector2d.lift)
      (isHull_extendBox hb (isHull_outline o))
    simpa [List.foldl_cons, List.flatMap_cons, List.append_assoc] using h

theorem isHull_getBoundingBox (p : Polygon2d) : p.getBoundingBox.IsHull p.points := by
  have h := isHull_foldl_extendBox p.theoutlines .empty [] rfl
  simpa [Polygon2d.getBoundingBox, Polygon2d.points] using h

theorem mem_points_iff (p : Polygon2d) (q : Vector3d) :
    q ∈ p.points ↔ ∃ o ∈ p.theoutlines, ∃ v ∈ o.vertices, v.lift = q := by
  simp [Polygon2d.points, List.mem_flatMap]

theorem exists_point_of_mem_map {S : List Vector3d} {f : Vector3d → ℚ} {m : ℚ}
    (h : m ∈ S.map f) : ∃ q ∈ S, f q = m := by
  simpa using h

/-- C8: `Polygon2d::getBoundingBox()` returns the smallest axis-aligned box that
contains every vertex `(x, y)` of every outline, taken as `(x, y, 0)`: for a polygon
with at least one vertex, the box contains every vertex, every box that contains
every vertex contains its two corners, its X and Y bounds are attained by vertices
and its Z range is `[0, 0]`; for the polygon with zero outlines it is the empty box. -/
theorem getBoundingBox_smallest_box (p : Polygon2d) :
    (p.theoutlines = [] → p.getBoundingBox = BoundingBox.empty) ∧
    ((∃ o ∈ p.theoutlines, o.vertices ≠ []) →
      ∃ mn mx, p.getBoundingBox = BoundingBox.box mn mx ∧
        (∀ o ∈ p.theoutlines, ∀ v ∈ o.vertices, (BoundingBox.box mn mx).contains v.lift) ∧
        (∀ b : BoundingBox, (∀ o ∈ p.theoutlines, ∀ v ∈ o.vertices, b.contains v.lift) →
          b.contains mn ∧ b.contains mx) ∧
        (∃ o ∈ p.theoutlines, ∃ v ∈ o.vertices, v.x = mn.x) ∧
        (∃ o ∈ p.theoutlines, ∃ v ∈ o.vertices, v.x = mx.x) ∧
        (∃ o ∈ p.theoutlines, ∃ v ∈ o.vertices, v.y = mn.y) ∧
        (∃ o ∈ p.theoutlines, ∃ v ∈ o.vertices, v.y = mx.y) ∧
        mn.z = 0 ∧ mx.z = 0) := by
  have hull := isHull_getBoundingBox p
  constructor
  · intro h
    simp [Polygon2d.getBoundingBox, h]
  · rintro ⟨o0, ho0, hne⟩
    obtain ⟨v0, hv0⟩ := List.exists_mem_of_ne_nil _ hne
    have hq0 : v0.lift ∈ p.points := (mem_points_iff p _).mpr ⟨o0, ho0, v0, hv0, rfl⟩
    cases hbb : p.getBoundingBox with
    | empty =>
      rw [hbb] at hull
      have hnil : p.points = [] := hull
      rw [hnil] at hq0
      exact absurd hq0 (by simp)
    | box mn mx =>
      rw [hbb] at hull
      obtain ⟨h1, h2, h3, h4, h5, h6⟩ := hull
      obtain ⟨q1, hq1, e1⟩ := exists_point_of_mem_map h1.1
      obtain ⟨q2, hq2, e2⟩ := exists_point_of_mem_map h2.1
      obtain ⟨q3, hq3, e3⟩ := exists_point_of_mem_map h3.1
      obtain ⟨q4, hq4, e4⟩ := exists_point_of_mem_map h4.1
      obtain ⟨q5, hq5, e5⟩ := exists_point_of_mem_map h5.1
      obtain ⟨q6, hq6, e6⟩ := exists_point_of_mem_map h6.1
      have hz : ∀ q ∈ p.points, q.z = 0 := by
        intro q hq
        obtain ⟨o, _, v, _, hv⟩ := (mem_points_iff p q).mp hq
        rw [← hv]; rfl
      have hmnz : mn.z = 0 := by rw [← e5]; exact hz q5 hq5
      have hmxz : mx.z = 0 := by rw [← e6]; exact hz q6 hq6
      have hin : ∀ q ∈ p.points, (BoundingBox.box mn mx).contains q := by
        intro q hq
        exact ⟨h1.2 _ (List.mem_map_of_mem (fun q => q.x) hq),
          h2.2 _ (List.mem_map_of_mem (fun q => q.x) hq),
          h3.2 _ (List.mem_map_of_mem (fun q => q.y) hq),
          h4.2 _ (List.mem_map_of_mem (fun q => q.y) hq),
          h5.2 _ (List.mem_map_of_mem (fun q => q.z) hq),
          h6.2 _ (List.mem_map_of_mem (fun q => q.z) hq)⟩
      refine ⟨mn, mx, rfl, ?_, ?_, ?_, ?_, ?_, ?_, hmnz, hmxz⟩
      · intro o ho v hv
        exact hin _ ((mem_points_iff p _).mpr ⟨o, ho, v, hv, rfl⟩)
      · intro b hb
        have hbq : ∀ q ∈ p.points, b.contains q := by
          intro q hq
          obtain ⟨o, ho, v, hv, e⟩ := (mem_points_iff p q).mp hq
          rw [← e]; exact hb o ho v hv
        cases b with
        | empty => exact absurd (hbq _ hq0) (by simp [BoundingBox.contains])
        | box mn2 mx2 =>
          have c1 := hbq q1 hq1
          have c2 := hbq q2 hq2
          have c3 := hbq q3 hq3
          have c4 := hbq q4 hq4
          have c5 := hbq q5 hq5
          have c6 := hbq q6 hq6
          simp only [BoundingBox.contains] at c1 c2 c3 c4 c5 c6 ⊢
          have d1 := hin q1 hq1
          have d2 := hin q2 hq2
          have d3 := hin q3 hq3
          have d4 := hin q4 hq4
          have d5 := hin q5 hq5
          have d6 := hin q6 hq6
          simp only [BoundingBox.contains] at d1 d2 d3 d4 d5 d6
          refine ⟨⟨?_, ?_, ?_, ?_, ?_, ?_⟩, ⟨?_, ?_, ?_, ?_, ?_, ?_⟩⟩ <;> linarith
      · obtain ⟨o, ho, v, hv, e⟩ := (mem_points_iff p q1).mp hq1
        exact ⟨o, ho, v, hv, by rw [← e1, ← e]; rfl⟩
      · obtain ⟨o, ho, v, hv, e⟩ := (mem_points_iff p q2).mp hq2
        exact ⟨o, ho, v, hv, by rw [← e2, ← e]; rfl⟩
      · obtain ⟨o, ho, v, hv, e⟩ := (mem_points_iff p q3).mp hq3
        exact ⟨o, ho, v, hv, by rw [← e3, ← e]; rfl⟩
      · obtain ⟨o, ho, v, hv, e⟩ := (mem_points_iff p q4).mp hq4
        exact ⟨o, ho, v, hv, by rw [← e4, ← e]; rfl⟩

/-! ### Resize -/

theorem coeff2_zero (v : Vector2d) : v.coeff 0 = v.x := rfl

theorem coeff2_one (v : Vector2d) : v.coeff 1 = v.y := rfl

theorem coeff3_zero (v : Vector3d) : v.coeff 0 = v.x := rfl

theorem coeff3_one (v : Vector3d) : v.coeff 1 = v.y := rfl

theorem coeffB_zero (v : BoolVector2) : v.coeff 0 = v.x := rfl

theorem coeffB_one (v : BoolVector2) : v.coeff 1 = v.y := rfl

theorem transform_resize_matrix (p : Polygon2d) (ns : Vector2d) (channel : List Message)
    (h0 : ns.x ≠ 0) (h1 : ns.y ≠ 0) :
    p.transform (resize_matrix ns) channel = (p.scaled ns.x ns.y, channel) := by
  have hdet : (resize_matrix ns).determinant ≠ 0 := by
    simp [resize_matrix, Transform2d.determinant, coeff2_zero, coeff2_one, h0, h1]
  rw [Polygon2d.transform, if_neg hdet]
  simp [Polygon2d.scaled, resize_matrix, Transform2d.mulVec, coeff2_zero,
    coeff2_one]

theorem size_of_sizes {bbox : BoundingBox} {sz : Vector3d} (h : bbox.sizes = some sz)
    (k : Fin 2) : bbox.size k = some (sz.coeff k) := by
  simp [BoundingBox.size, h]

theorem ddiv_some (a : ℚ) {d : ℚ} (hd : d ≠ 0) : ddiv a (some d) = some (a / d) := by
  simp [ddiv, hd]

theorem resize_maxdim_cases (newsize : Vector2d) :
    resize_maxdim newsize = 0 ∨ resize_maxdim newsize = 1 := by
  unfold resize_maxdim
  split <;> simp

theorem resize_of_newscale (p : Polygon2d) (newsize : Vector2d) (autosize : BoolVector2)
    (channel : List Message) {ns : Vector2d}
    (h : resize_newscale p.getBoundingBox newsize autosize = some ns)
    (h0 : ns.x ≠ 0) (h1 : ns.y ≠ 0) :
    p.resize newsize autosize channel = some (p.scaled ns.x ns.y, channel) := by
  simp [Polygon2d.resize, h, transform_resize_matrix p ns channel h0 h1]

theorem fin2_cases (k : Fin 2) : k = 0 ∨ k = 1 := by
  fin_cases k <;> simp

theorem otherAxis_zero : otherAxis 0 = 1 := rfl

theorem otherAxis_one : otherAxis 1 = 0 := rfl

theorem resize_newscale_autosize {bbox : BoundingBox} {sz : Vector3d}
    (hs : bbox.sizes = some sz) (hx : sz.x ≠ 0) (hy : sz.y ≠ 0) (newsize : Vector2d)
    (autosize : BoolVector2) (k : Fin 2) (hk : 0 < newsize.coeff k)
    (ho : newsize.coeff (otherAxis k) = 0) (ha : autosize.coeff (otherAxis k) = true) :
    resize_newscale bbox newsize autosize
      = some ⟨newsize.coeff k / sz.coeff k, newsize.coeff k / sz.coeff k⟩ := by
  rcases fin2_cases k with rfl | rfl
  · simp only [otherAxis_zero, coeff2_zero, coeff2_one,
      coeffB_one, coeff3_zero] at hk ho ha ⊢
    have hm : resize_maxdim newsize = 0 := by
      simp [resize_maxdim, coeff2_one, ho]
    simp [resize_newscale, resize_ratio, hm, size_of_sizes hs, coeff2_zero, coeff2_one,
      coeff3_zero, coeffB_zero, coeffB_one, hk, ho, ha, ddiv_some, hx]
  · simp only [otherAxis_one, coeff2_zero, coeff2_one, coeffB_zero,
      coeff3_one] at hk ho ha ⊢
    have hm : resize_maxdim newsize = 1 := by
      simp [resize_maxdim, coeff2_one, coeff2_zero, ho, hk, ne_of_gt hk]
    simp [resize_newscale, resize_ratio, hm, size_of_sizes hs, coeff2_zero, coeff2_one,
      coeff3_one, coeffB_zero, coeffB_one, hk, ho, ha, ddiv_some, hy]

theorem resize_exact_autosize_uniform (p : Polygon2d) (newsize : Vector2d) (autosize : BoolVector2)
    (channel : List Message) (sz : Vector3d) (hs : p.getBoundingBox.sizes = some sz)
    (hx : 0 < sz.coeff 0) (hy : 0 < sz.coeff 1) (k : Fin 2) (hk : 0 < newsize.coeff k)
    (ho : newsize.coeff (otherAxis k) = 0) (ha : autosize.coeff (otherAxis k) = true) :
    resize_newscale p.getBoundingBox newsize autosize
      = some ⟨newsize.coeff k / sz.coeff k, newsize.coeff k / sz.coeff k⟩ ∧
    p.resize newsize autosize channel
      = some (p.scaled (newsize.coeff k / sz.coeff k) (newsize.coeff k / sz.coeff k),
          channel) := by
  simp only [coeff3_zero, coeff3_one] at hx hy
  have hns := resize_newscale_autosize hs (ne_of_gt hx) (ne_of_gt hy) newsize autosize k hk ho ha
  have hpos : 0 < sz.coeff k := by
    rcases fin2_cases k with rfl | rfl
    · exact hx
    · exact hy
  have hf : newsize.coeff k / sz.coeff k ≠ 0 := ne_of_gt (div_pos hk hpos)
  exact ⟨hns, resize_of_newscale p newsize autosize channel hns hf hf⟩

theorem scaled_vertexAt (p : Polygon2d) (a c : ℚ) (i j : Nat) :
    (p.scaled a c).vertexAt i j = (p.vertexAt i j).map (fun v => ⟨a * v.x, c * v.y⟩) := by
  simp only [Polygon2d.scaled, Polygon2d.vertexAt, List.getElem?_map]
  cases p.theoutlines[i]? with
  | none => rfl
  | some o => simp [List.getElem?_map]

theorem resize_newscale_some {bbox : BoundingBox} {newsize : Vector2d}
    {autosize : BoolVector2} {ns : Vector2d}
    (h : resize_newscale bbox newsize autosize = some ns) :
    ∃ s0 s1 au,
      resize_ratio (newsize.coeff 0) (bbox.size 0) = some s0 ∧
      resize_ratio (newsize.coeff 1) (bbox.size 1) = some s1 ∧
      resize_ratio (newsize.coeff (resize_maxdim newsize)) (bbox.size (resize_maxdim newsize))
        = some au ∧
      ns = ⟨if autosize.coeff 0 = false ∨ newsize.coeff 0 > 0 then s0 else au,
        if autosize.coeff 1 = false ∨ newsize.coeff 1 > 0 then s1 else au⟩ := by
  unfold resize_newscale at h
  obtain ⟨s0, h0, h⟩ := Option.bind_eq_some.mp h
  obtain ⟨s1, h1, h⟩ := Option.bind_eq_some.mp h
  obtain ⟨au, h2, h⟩ := Option.bind_eq_some.mp h
  refine ⟨s0, s1, au, h0, h1, h2, ?_⟩
  simp only [Option.some.injEq] at h
  rw [← h]
  rfl

theorem resize_newscale_unit (bbox : BoundingBox) (newsize : Vector2d) (autosize : BoolVector2)
    (k : Fin 2) (hk : ¬ 0 < newsize.coeff k) (ha : autosize.coeff k = false) (ns : Vector2d)
    (hns : resize_newscale bbox newsize autosize = some ns) : ns.coeff k = 1 := by
  obtain ⟨s0, s1, au, h0, h1, _, rfl⟩ := resize_newscale_some hns
  rcases fin2_cases k with rfl | rfl
  · have hk2 : ¬ newsize.coeff 0 > 0 := hk
    rw [resize_ratio, if_neg hk2] at h0
    simp only [Option.some.injEq] at h0
    simp [coeff2_zero, ha, ← h0]
  · have hk2 : ¬ newsize.coeff 1 > 0 := hk
    rw [resize_ratio, if_neg hk2] at h1
    simp only [Option.some.injEq] at h1
    simp [coeff2_one, ha, ← h1]

/-- C7: on an axis `k` whose requested target size is not positive and on which autosize
is not requested, `resize` uses the scale factor 1; when the scale factor of the other
axis is well defined and non-zero, every vertex keeps its coordinate on axis `k`. -/
theorem resize_unit_factor_axis (p : Polygon2d) (newsize : Vector2d) (autosize : BoolVector2)
    (channel : List Message) (k : Fin 2) (hk : ¬ 0 < newsize.coeff k)
    (ha : autosize.coeff k = false) (ns : Vector2d)
    (hns : resize_newscale p.getBoundingBox newsize autosize = some ns) :
    ns.coeff k = 1 ∧
    (ns.coeff (otherAxis k) ≠ 0 →
      ∃ p2, p.resize newsize autosize channel = some (p2, channel) ∧
        ∀ i j, (p2.vertexAt i j).map (fun v => v.coeff k)
          = (p.vertexAt i j).map (fun v => v.coeff k)) := by
  have h1 := resize_newscale_unit p.getBoundingBox newsize autosize k hk ha ns hns
  refine ⟨h1, fun hne => ?_⟩
  have hx : ns.x ≠ 0 := by
    rcases fin2_cases k with rfl | rfl
    · rw [coeff2_zero] at h1; rw [h1]; exact one_ne_zero
    · exact hne
  have hy : ns.y ≠ 0 := by
    rcases fin2_cases k with rfl | rfl
    · exact hne
    · rw [coeff2_one] at h1; rw [h1]; exact one_ne_zero
  refine ⟨_, resize_of_newscale p newsize autosize channel hns hx hy, fun i j => ?_⟩
  rw [scaled_vertexAt, Option.map_map]
  congr 1
  funext v
  rcases fin2_cases k with rfl | rfl
  · simp only [Function.comp, coeff2_zero] at h1 ⊢
    rw [h1, one_mul]
  · simp only [Function.comp, coeff2_one] at h1 ⊢
    rw [h1, one_mul]

theorem getBoundingBox_square (a : ℚ) (ha : 0 ≤ a) :
    (Polygon2d.ofOutline (squareOutline a)).getBoundingBox
      = BoundingBox.box ⟨0, 0, 0⟩ ⟨a, a, 0⟩ := by
  simp [Polygon2d.ofOutline, squareOutline, Polygon2d.getBoundingBox, Outline2d.getBoundingBox,
    BoundingBox.extend, BoundingBox.extendBox, Vector3d.cwiseMin, Vector3d.cwiseMax, ha]

theorem scaled_square (a f : ℚ) :
    (Polygon2d.ofOutline (squareOutline a)).scaled f f
      = Polygon2d.ofOutline (squareOutline (f * a)) := by
  simp [Polygon2d.ofOutline, squareOutline, Polygon2d.scaled]

theorem sizes_square (a : ℚ) (ha : 0 ≤ a) :
    (Polygon2d.ofOutline (squareOutline a)).getBoundingBox.sizes = some ⟨a, a, 0⟩ := by
  rw [getBoundingBox_square a ha]
  simp [BoundingBox.sizes]

/-- The unit square with `resize(newsize = (2, 0), autosize = (false, false))`: the
factor on Y is 1 and the vertex `(1, 1)` at position 2 keeps its Y coordinate. -/
theorem resize_unit_factor_axis_witness :
    (⟨2, 1⟩ : Vector2d).coeff 1 = 1 ∧
    ∃ p2, (Polygon2d.ofOutline (squareOutline 1)).resize ⟨2, 0⟩ ⟨false, false⟩ []
        = some (p2, []) ∧
      (p2.vertexAt 0 2).map (fun v => v.coeff 1) = some 1 := by
  have hns : resize_newscale (Polygon2d.ofOutline (squareOutline 1)).getBoundingBox ⟨2, 0⟩
      ⟨false, false⟩ = some ⟨2, 1⟩ := by
    rw [getBoundingBox_square 1 (by norm_num)]
    simp [resize_newscale, resize_ratio, resize_maxdim, BoundingBox.size, BoundingBox.sizes,
      ddiv, Vector2d.coeff, Vector3d.coeff, BoolVector2.coeff]
  have h := resize_unit_factor_axis (Polygon2d.ofOutline (squareOutline 1)) ⟨2, 0⟩
    ⟨false, false⟩ [] 1 (by norm_num [Vector2d.coeff]) rfl ⟨2, 1⟩ hns
  refine ⟨h.1, ?_⟩
  obtain ⟨p2, hp2, hv⟩ := h.2 (by norm_num [Vector2d.coeff, otherAxis])
  refine ⟨p2, hp2, ?_⟩
  rw [hv 0 2]
  simp [Polygon2d.vertexAt, Polygon2d.ofOutline, squareOutline, Vector2d.coeff]

/-- The polygon without outlines has the empty box; the box of the unit square lies in
the plane `z = 0`. -/
theorem getBoundingBox_smallest_box_witness :
    Polygon2d.getBoundingBox ⟨[], true⟩ = BoundingBox.empty ∧
    ∃ mn mx, (Polygon2d.ofOutline (squareOutline 1)).getBoundingBox = BoundingBox.box mn mx ∧
      mn.z = 0 ∧ mx.z = 0 := by
  refine ⟨(getBoundingBox_smallest_box ⟨[], true⟩).1 rfl, ?_⟩
  obtain ⟨mn, mx, h, _, _, _, _, _, _, hz1, hz2⟩ :=
    (getBoundingBox_smallest_box (Polygon2d.ofOutline (squareOutline 1))).2
      ⟨squareOutline 1, by simp [Polygon2d.ofOutline], by simp [squareOutline]⟩
  exact ⟨mn, mx, h, hz1, hz2⟩

/-! ### Area -/

theorem area_step_eq (ps : PolySet) (acc : ℚ) (poly : List Nat) :
    area_step ps acc poly = (ps.triangle poly).map (fun t => acc + signedTriangleArea t) := by
  unfold area_step PolySet.triangle
  cases poly[0]? <;> cases poly[1]? <;> cases poly[2]? <;> try rfl
  rename_i i1 i2 i3
  simp only [Option.bind_eq_bind, Option.some_bind]
  cases ps.vertices[i1]? <;> cases ps.vertices[i2]? <;> cases ps.vertices[i3]? <;> rfl

theorem area_foldlM_eq (ps : PolySet) (faces : List (List Nat)) (acc : ℚ) :
    faces.foldlM (area_step ps) acc
      = (ps.resolve faces).map (fun ts => acc + (ts.map signedTriangleArea).sum) := by
  induction faces generalizing acc with
  | nil => simp [PolySet.resolve]
  | cons poly rest ih =>
    rw [List.foldlM_cons, area_step_eq]
    cases ht : ps.triangle poly with
    | none => simp [PolySet.resolve, ht]
    | some t =>
      simp only [Option.map_some', Option.bind_eq_bind, Option.some_bind, ih]
      cases hr : ps.resolve rest with
      | none => simp [PolySet.resolve, ht, hr]
      | some ts => simp [PolySet.resolve, ht, hr, add_assoc]

theorem area_of_tessellate_some (p : Polygon2d) (env : TessellationEnv) (ps : PolySet)
    (h : p.tessellate env = some ps) :
    p.area env = ps.triangles.map (fun ts => (ts.map signedTriangleArea).sum) := by
  simp [Polygon2d.area, h, area_foldlM_eq, PolySet.triangles]

/-- C9: `area()` is the sum, over the triangles `(v1, v2, v3)` of the mesh returned by
`tessellate()`, of `0.5 * (v1.x*(v2.y - v3.y) + v2.x*(v3.y - v1.y) + v3.x*(v1.y - v2.y))`;
when `tessellate()` returns no mesh, `area()` returns 0. -/
theorem area_sums_signed_triangles (p : Polygon2d) (env : TessellationEnv) :
    (p.tessellate env = none → p.area env = some 0) ∧
    (∀ ps tris, p.tessellate env = some ps → ps.triangles = some tris →
      p.area env = some ((tris.map signedTriangleArea).sum)) := by
  constructor
  · intro h
    simp [Polygon2d.area, h]
  · intro ps tris h ht
    rw [area_of_tessellate_some p env ps h, ht]
    rfl

/-- With a backend that returns no mesh the area of the unit square is 0; with the fan
backend it is the sum of the signed areas of the two triangles. -/
theorem area_sums_signed_triangles_witness :
    (Polygon2d.ofOutline (squareOutline 1)).area (TessellationEnv.ofBackend (fun _ => none))
      = some 0 ∧
    (Polygon2d.ofOutline (squareOutline 1)).area (TessellationEnv.ofBackend fanBackend)
      = some (([((⟨0, 0, 0⟩ : Vector3d), (⟨1, 0, 0⟩ : Vector3d), (⟨1, 1, 0⟩ : Vector3d)),
          (⟨0, 0, 0⟩, ⟨1, 1, 0⟩, ⟨0, 1, 0⟩)].map signedTriangleArea).sum) :=
  ⟨(area_sums_signed_triangles _ _).1 rfl,
    (area_sums_signed_triangles _ _).2
      ⟨[⟨0, 0, 0⟩, ⟨1, 0, 0⟩, ⟨1, 1, 0⟩, ⟨0, 1, 0⟩], [[0, 1, 2], [0, 2, 3]]⟩ _ rfl rfl⟩

/-- C11: for every module, `is_experimental()` is true if and only if a feature flag is
associated with it, and `is_enabled()` is true if and only if no flag is associated or
the associated flag is currently enabled; a module built with no flag is not
experimental and enabled in every provider state, a module built with a flag is
experimental and as enabled as the flag currently is, also after the flag is toggled. -/
theorem module_gating (m : AbstractModule) (state : FeatureState) (f : Feature) (b : Bool) :
    (m.is_experimental = true ↔ ∃ g, m.feature = some g) ∧
    (m.is_enabled state = true ↔
      m.feature = none ∨ ∃ g, m.feature = some g ∧ g.is_enabled state = true) ∧
    (AbstractModule.new.is_experimental = false ∧ AbstractModule.new.is_enabled state = true) ∧
    ((BuiltinModule.new none).toAbstractModule.is_experimental = false ∧
      (BuiltinModule.new none).toAbstractModule.is_enabled state = true) ∧
    ((AbstractModule.ofFeature f).is_experimental = true ∧
      (AbstractModule.ofFeature f).is_enabled state = f.is_enabled state ∧
      (AbstractModule.ofFeature f).is_enabled (state.set f b) = b) ∧
    ((BuiltinModule.new (some f)).toAbstractModule.is_experimental = true ∧
      (BuiltinModule.new (some f)).toAbstractModule.is_enabled state = f.is_enabled state ∧
      (BuiltinModule.new (some f)).toAbstractModule.is_enabled (state.set f b) = b) := by
  refine ⟨?_, ?_, ⟨rfl, rfl⟩, ⟨rfl, rfl⟩, ⟨rfl, rfl, ?_⟩, ⟨rfl, rfl, ?_⟩⟩
  · cases m with
    | mk feature => cases feature <;> simp [AbstractModule.is_experimental]
  · cases m with
    | mk feature => cases feature <;> simp [AbstractModule.is_enabled]
  · simp [AbstractModule.ofFeature, AbstractModule.is_enabled, Feature.is_enabled,
      FeatureState.set]
  · simp [BuiltinModule.new, AbstractModule.ofPointer, AbstractModule.is_enabled,
      Feature.is_enabled, FeatureState.set]

/-! ### Emptiness and tessellation dispatch -/

/-- C12: `isEmpty()` returns true if and only if the polygon has zero outlines; a
polygon whose only outline has zero vertices is not empty. -/
theorem isEmpty_iff_no_outline (p : Polygon2d) (s : Bool) :
    (p.isEmpty = true ↔ p.theoutlines.length = 0) ∧
    Polygon2d.isEmpty ⟨[⟨[]⟩], s⟩ = false := by
  constructor
  · simp [Polygon2d.isEmpty, List.isEmpty_iff]
  · rfl

/-- C13: `tessellate()` returns exactly the result of one backend's
`createTriangulatedPolySetFromPolygon2d` on the polygon; the backend is the one named
by the configuration (mesh-boolean when compiled in and selected,
constraint-triangulation otherwise), the same for any two polygons. -/
theorem tessellate_dispatch (env : TessellationEnv) (p q : Polygon2d) :
    p.tessellate env = env.create (selectedBackend env.manifoldTriangulator env.backend3D) p ∧
    q.tessellate env = env.create (selectedBackend env.manifoldTriangulator env.backend3D) q ∧
    (selectedBackend env.manifoldTriangulator env.backend3D = TriangulationBackend.Manifold ↔
      env.manifoldTriangulator = true ∧ env.backend3D = RenderBackend3D.ManifoldBackend) ∧
    (selectedBackend env.manifoldTriangulator env.backend3D = TriangulationBackend.CGAL ↔
      ¬ (env.manifoldTriangulator = true ∧ env.backend3D = RenderBackend3D.ManifoldBackend)) := by
  have key : ∀ r : Polygon2d, r.tessellate env
      = env.create (selectedBackend env.manifoldTriangulator env.backend3D) r := by
    intro r
    unfold Polygon2d.tessellate selectedBackend
    split <;> rfl
  refine ⟨key p, key q, ?_, ?_⟩
  · unfold selectedBackend
    split <;> simp_all
  · unfold selectedBackend
    split <;> simp_all

/-! ### The dominant axis of `resize` -/

/-- C14, as stated, fails for `newsize = (-2, -1)`: no target is positive, so Y does not
have the larger positive target, and yet the dominant axis is Y. -/
theorem resize_maxdim_negative_targets :
    resize_maxdim ⟨-2, -1⟩ = 1 ∧
    ¬ (0 < (⟨-2, -1⟩ : Vector2d).coeff 1 ∧
      (⟨-2, -1⟩ : Vector2d).coeff 0 < (⟨-2, -1⟩ : Vector2d).coeff 1) := by
  constructor
  · simp [resize_maxdim, Vector2d.coeff]
  · norm_num [Vector2d.coeff]

/-- C14, amended: the dominant axis of `resize` is Y exactly when the Y target is
non-zero and strictly larger than the X target, and X in every other case (both
targets zero, equal targets); when the Y target is not negative, this is exactly
when Y has the larger positive target. -/
theorem resize_maxdim_dominant (newsize : Vector2d) :
    (resize_maxdim newsize = 1 ↔
      newsize.coeff 1 ≠ 0 ∧ newsize.coeff 0 < newsize.coeff 1) ∧
    (resize_maxdim newsize = 0 ↔
      ¬ (newsize.coeff 1 ≠ 0 ∧ newsize.coeff 0 < newsize.coeff 1)) ∧
    (0 ≤ newsize.coeff 1 →
      (resize_maxdim newsize = 1 ↔
        0 < newsize.coeff 1 ∧ newsize.coeff 0 < newsize.coeff 1)) := by
  have h1 : resize_maxdim newsize = 1 ↔
      newsize.coeff 1 ≠ 0 ∧ newsize.coeff 0 < newsize.coeff 1 := by
    unfold resize_maxdim
    split <;> simp_all
  have h0 : resize_maxdim newsize = 0 ↔
      ¬ (newsize.coeff 1 ≠ 0 ∧ newsize.coeff 0 < newsize.coeff 1) := by
    unfold resize_maxdim
    split <;> simp_all
  refine ⟨h1, h0, fun hy => ?_⟩
  rw [h1]
  constructor
  · rintro ⟨hne, hlt⟩
    exact ⟨lt_of_le_of_ne hy (Ne.symm hne), hlt⟩
  · rintro ⟨hpos, hlt⟩
    exact ⟨ne_of_gt hpos, hlt⟩

/-! ### Totality of `is_convex` -/

theorem cyclicCross_short (pts : List Vector2d) (h : pts.length < 3) (j : Nat)
    (hj : j < pts.length) : cyclicCross pts j = 0 := by
  match pts, h, hj with
  | [a], _, hj =>
    have hj0 : j = 0 := by simpa using hj
    subst hj0
    simp [cyclicCross]
  | [a, b], _, hj =>
    have hj2 : j < 2 := by simpa using hj
    interval_cases j
    · simp [cyclicCross]
      ring
    · simp [cyclicCross]
      ring

theorem is_convex_some (p : Polygon2d) : ∃ b, p.is_convex = some b := by
  cases p with
  | mk outlines s =>
    match outlines with
    | [] => exact ⟨true, by simp [Polygon2d.is_convex]⟩
    | [o] => exact ⟨_, is_convex_single o s⟩
    | o1 :: o2 :: rest => exact ⟨false, by simp [Polygon2d.is_convex]⟩

/-- C15: `is_convex()` is total and its vertex reads are in range: it returns a value
for every polygon, every iteration `i < N` of its loop reads `pts[i]`,
`pts[(i + 1) % N]` and `pts[(i + 2) % N]` inside the vector with `N` non-zero, and a
single outline with fewer than 3 vertices yields true. -/
theorem is_convex_total (p : Polygon2d) (o : Outline2d) (s : Bool) :
    (∃ b, p.is_convex = some b) ∧
    (∀ i, i < o.vertices.length →
      o.vertices.length ≠ 0 ∧ (i + 1) % o.vertices.length < o.vertices.length ∧
      (i + 2) % o.vertices.length < o.vertices.length ∧
      ∃ z, is_convex_zcross o.vertices o.vertices.length i = some z) ∧
    (o.vertices.length < 3 → Polygon2d.is_convex ⟨[o], s⟩ = some true) := by
  refine ⟨is_convex_some p, ?_, ?_⟩
  · intro i hi
    have hN : 0 < o.vertices.length := by omega
    exact ⟨by omega, Nat.mod_lt _ hN, Nat.mod_lt _ hN, _, is_convex_zcross_eq o.vertices i hi⟩
  · intro h
    rw [is_convex_single]
    have hall : ∀ j, j < o.vertices.length → 0 ≤ cyclicCross o.vertices j := by
      intro j hj
      rw [cyclicCross_short o.vertices h j hj]
    simp only [Option.some.injEq, decide_eq_true_eq]
    exact hall

/-- A polygon of two outlines, and the outline of the two points `(0, 0)`, `(1, 0)`. -/
theorem is_convex_total_witness :
    (∃ b, Polygon2d.is_convex ⟨[squareOutline 1, squareOutline 2], true⟩ = some b) ∧
    Polygon2d.is_convex ⟨[⟨[⟨0, 0⟩, ⟨1, 0⟩]⟩], true⟩ = some true :=
  ⟨(is_convex_total ⟨[squareOutline 1, squareOutline 2], true⟩ ⟨[]⟩ true).1,
    (is_convex_total ⟨[], true⟩ ⟨[⟨0, 0⟩, ⟨1, 0⟩]⟩ true).2.2 (by decide)⟩

/-! ### `resize` keeps the geometry -/

theorem resize_ratio_pos (t : ℚ) {d : ℚ} (hd : 0 < d) :
    ∃ r, resize_ratio t (some d) = some r ∧ 0 < r ∧ (¬ 0 < t → r = 1) := by
  by_cases ht : 0 < t
  · refine ⟨t / d, ?_, div_pos ht hd, fun h => absurd ht h⟩
    have ht2 : t > 0 := ht
    rw [resize_ratio, if_pos ht2, ddiv_some t (ne_of_gt hd)]
  · refine ⟨1, ?_, one_pos, fun _ => rfl⟩
    have ht2 : ¬ t > 0 := ht
    rw [resize_ratio, if_neg ht2]

theorem resize_newscale_pos {bbox : BoundingBox} {sz : Vector3d} (hs : bbox.sizes = some sz)
    (hx : 0 < sz.x) (hy : 0 < sz.y) (newsize : Vector2d) (autosize : BoolVector2) :
    ∃ ns, resize_newscale bbox newsize autosize = some ns ∧ 0 < ns.x ∧ 0 < ns.y ∧
      (¬ 0 < newsize.x → ¬ 0 < newsize.y → ns = ⟨1, 1⟩) := by
  have hm : 0 < sz.coeff (resize_maxdim newsize) := by
    rcases resize_maxdim_cases newsize with h | h <;> rw [h]
    · exact hx
    · exact hy
  have hx0 : 0 < sz.coeff 0 := hx
  have hy1 : 0 < sz.coeff 1 := hy
  obtain ⟨r0, e0, p0, u0⟩ := resize_ratio_pos (newsize.coeff 0) hx0
  obtain ⟨r1, e1, p1, u1⟩ := resize_ratio_pos (newsize.coeff 1) hy1
  obtain ⟨ra, ea, pa, ua⟩ := resize_ratio_pos (newsize.coeff (resize_maxdim newsize)) hm
  refine ⟨⟨if autosize.coeff 0 = false ∨ newsize.coeff 0 > 0 then r0 else ra,
    if autosize.coeff 1 = false ∨ newsize.coeff 1 > 0 then r1 else ra⟩, ?_, ?_, ?_, ?_⟩
  · unfold resize_newscale
    simp only [size_of_sizes hs, e0, e1, ea, Option.bind_eq_bind, Option.some_bind]
    rfl
  · show 0 < (if autosize.coeff 0 = false ∨ newsize.coeff 0 > 0 then r0 else ra)
    split
    · exact p0
    · exact pa
  · show 0 < (if autosize.coeff 1 = false ∨ newsize.coeff 1 > 0 then r1 else ra)
    split
    · exact p1
    · exact pa
  · intro h0 h1
    have hma : ¬ 0 < newsize.coeff (resize_maxdim newsize) := by
      rcases resize_maxdim_cases newsize with h | h <;> rw [h]
      · exact h0
      · exact h1
    rw [u0 h0, u1 h1, ua hma]
    simp

theorem scaled_one_one (p : Polygon2d) : p.scaled 1 1 = p := by
  cases p with
  | mk outlines s =>
    simp only [Polygon2d.scaled, one_mul, Polygon2d.mk.injEq, and_true]
    have hv : ∀ vs : List Vector2d, vs.map (fun v => (⟨v.x, v.y⟩ : Vector2d)) = vs := by
      intro vs
      induction vs with
      | nil => rfl
      | cons v vs ih => rw [List.map_cons, ih]
    induction outlines with
    | nil => rfl
    | cons o os ih => rw [List.map_cons, ih, hv]

theorem scaled_vertexCount (p : Polygon2d) (a c : ℚ) (i : Nat) :
    (p.scaled a c).vertexCount i = p.vertexCount i := by
  simp only [Polygon2d.scaled, Polygon2d.vertexCount, List.getElem?_map]
  cases p.theoutlines[i]? with
  | none => rfl
  | some o => simp

theorem resize_exact_keeps_geometry (p : Polygon2d) (newsize : Vector2d) (autosize : BoolVector2)
    (channel : List Message) (sz : Vector3d) (hs : p.getBoundingBox.sizes = some sz)
    (hx : 0 < sz.coeff 0) (hy : 0 < sz.coeff 1) :
    ∃ ns p2, resize_newscale p.getBoundingBox newsize autosize = some ns ∧
      0 < ns.coeff 0 ∧ 0 < ns.coeff 1 ∧
      (resize_matrix ns).determinant ≠ 0 ∧
      p.resize newsize autosize channel = some (p2, channel) ∧
      p2.theoutlines.length = p.theoutlines.length ∧
      (∀ i, p2.vertexCount i = p.vertexCount i) ∧
      (¬ 0 < newsize.coeff 0 → ¬ 0 < newsize.coeff 1 → p2 = p) := by
  obtain ⟨ns, hns, h0, h1, hu⟩ := resize_newscale_pos hs hx hy newsize autosize
  refine ⟨ns, p.scaled ns.x ns.y, hns, h0, h1, ?_,
    resize_of_newscale p newsize autosize channel hns (ne_of_gt h0) (ne_of_gt h1), ?_,
    scaled_vertexCount p ns.x ns.y, ?_⟩
  · simp [resize_matrix, Transform2d.determinant, coeff2_zero, coeff2_one, ne_of_gt h0,
      ne_of_gt h1]
  · simp [Polygon2d.scaled]
  · intro hn0 hn1
    rw [hu hn0 hn1]
    exact scaled_one_one p

/-! ### Algebra of `transform` -/

theorem determinant_mul (b a : Transform2d) :
    (b.mul a).determinant = b.determinant * a.determinant := by
  simp only [Transform2d.mul, Transform2d.determinant]
  ring

theorem mulVec_mul (b a : Transform2d) (ha : a.IsAffine) (v : Vector2d) :
    (b.mul a).mulVec v = b.mulVec (a.mulVec v) := by
  obtain ⟨h0, h1, h2⟩ := ha
  simp only [Transform2d.mul, Transform2d.mulVec, h0, h1, h2, Vector2d.mk.injEq]
  constructor <;> ring

theorem transform_regular (p : Polygon2d) (mat : Transform2d) (channel : List Message)
    (h : mat.determinant ≠ 0) :
    p.transform mat channel
      = (⟨p.theoutlines.map (fun o => ⟨o.vertices.map (fun v => mat.mulVec v)⟩), p.sanitized⟩,
          channel) := by
  rw [Polygon2d.transform, if_neg h]

theorem transform_degenerate (p : Polygon2d) (mat : Transform2d) (channel : List Message)
    (h : mat.determinant = 0) :
    (p.transform mat channel).1 = ⟨[], p.sanitized⟩ := by
  rw [Polygon2d.transform, if_pos h]

/-- C19: for every polygon and every two affine transforms `A` and `B`, the outlines
after `transform(A)` followed by `transform(B)` are the outlines after the single
call `transform(B * A)`; as soon as `A` or `B` has determinant 0 both are empty. -/
theorem transform_compose (p : Polygon2d) (A B : Transform2d) (channel channel2 : List Message)
    (hA : A.IsAffine) (hB : B.IsAffine) :
    ((p.transform A channel).1.transform B channel2).1.theoutlines
      = (p.transform (B.mul A) channel).1.theoutlines ∧
    (A.determinant = 0 ∨ B.determinant = 0 →
      ((p.transform A channel).1.transform B channel2).1.theoutlines = [] ∧
      (p.transform (B.mul A) channel).1.theoutlines = []) := by
  have _hB := hB
  by_cases ha : A.determinant = 0
  · have hba : (B.mul A).determinant = 0 := by rw [determinant_mul, ha, mul_zero]
    have h2 : (p.transform (B.mul A) channel).1.theoutlines = [] := by
      rw [transform_degenerate p _ channel hba]
    have h1 : ((p.transform A channel).1.transform B channel2).1.theoutlines = [] := by
      rw [transform_degenerate p A channel ha]
      by_cases hb : B.determinant = 0
      · rw [transform_degenerate _ B channel2 hb]
      · rw [transform_regular _ B channel2 hb]
        rfl
    exact ⟨by rw [h1, h2], fun _ => ⟨h1, h2⟩⟩
  · by_cases hb : B.determinant = 0
    · have hba : (B.mul A).determinant = 0 := by rw [determinant_mul, hb, zero_mul]
      have h2 : (p.transform (B.mul A) channel).1.theoutlines = [] := by
        rw [transform_degenerate p _ channel hba]
      have h1 : ((p.transform A channel).1.transform B channel2).1.theoutlines = [] := by
        rw [transform_degenerate _ B channel2 hb]
      exact ⟨by rw [h1, h2], fun _ => ⟨h1, h2⟩⟩
    · have hba : (B.mul A).determinant ≠ 0 := by
        rw [determinant_mul]
        exact mul_ne_zero hb ha
      refine ⟨?_, fun h => absurd h (by tauto)⟩
      rw [transform_regular p A channel ha, transform_regular _ B channel2 hb,
        transform_regular p _ channel hba]
      simp only [List.map_map]
      congr 1
      funext o
      simp only [Function.comp, List.map_map, Outline2d.mk.injEq]
      congr 1
      funext v
      exact (mulVec_mul B A hA v).symm

/-- Scaling the unit square by 2 and then moving it by `(1, 1)` is the single
transform by the product; scaling by 0 first leaves nothing either way. -/
theorem transform_compose_witness :
    (((Polygon2d.ofOutline (squareOutline 1)).transform (Transform2d.scaling 2) []).1.transform
        (Transform2d.translation 1 1) []).1.theoutlines
      = ((Polygon2d.ofOutline (squareOutline 1)).transform
          ((Transform2d.translation 1 1).mul (Transform2d.scaling 2)) []).1.theoutlines ∧
    (((Polygon2d.ofOutline (squareOutline 1)).transform (Transform2d.scaling 0) []).1.transform
        (Transform2d.translation 1 1) []).1.theoutlines = [] :=
  ⟨(transform_compose (Polygon2d.ofOutline (squareOutline 1)) (Transform2d.scaling 2)
      (Transform2d.translation 1 1) [] [] ⟨rfl, rfl, rfl⟩ ⟨rfl, rfl, rfl⟩).1,
    ((transform_compose (Polygon2d.ofOutline (squareOutline 1)) (Transform2d.scaling 0)
      (Transform2d.translation 1 1) [] [] ⟨rfl, rfl, rfl⟩ ⟨rfl, rfl, rfl⟩).2
      (Or.inl (by simp [scaling_determinant]))).1⟩

/-! ### Convexity under affine maps -/

theorem getD_map_of_lt {f : Vector2d → Vector2d} (pts : List Vector2d) (k : Nat)
    (hk : k < pts.length) (d e : Vector2d) :
    (pts.map f).getD k d = f (pts.getD k e) := by
  simp [List.getD_eq_getElem?_getD, List.getElem?_map, List.getElem?_eq_getElem hk]

theorem cyclicCross_map (mat : Transform2d) (ha : mat.IsAffine) (pts : List Vector2d)
    (i : Nat) :
    cyclicCross (pts.map (fun v => mat.mulVec v)) i = mat.determinant * cyclicCross pts i := by
  obtain ⟨h0, h1, h2⟩ := ha
  rcases Nat.eq_zero_or_pos pts.length with hN | hN
  · have hnil : pts = [] := List.length_eq_zero.mp hN
    subst hnil
    simp [cyclicCross]
  · have k0 : i % pts.length < pts.length := Nat.mod_lt _ hN
    have k1 : (i + 1) % pts.length < pts.length := Nat.mod_lt _ hN
    have k2 : (i + 2) % pts.length < pts.length := Nat.mod_lt _ hN
    simp only [cyclicCross, List.length_map]
    rw [getD_map_of_lt pts _ k0 ⟨0, 0⟩ ⟨0, 0⟩, getD_map_of_lt pts _ k1 ⟨0, 0⟩ ⟨0, 0⟩,
      getD_map_of_lt pts _ k2 ⟨0, 0⟩ ⟨0, 0⟩]
    simp only [Transform2d.mulVec, Transform2d.determinant, h0, h1, h2]
    ring

/-- C17: for every polygon and every affine transform with strictly positive
determinant, `is_convex()` after `transform(mat)` equals `is_convex()` before it, and
every cyclic cross product of an outline is multiplied by the determinant. -/
theorem is_convex_transform_invariant (p : Polygon2d) (mat : Transform2d)
    (channel : List Message) (ha : mat.IsAffine) (hd : 0 < mat.determinant) :
    (p.transform mat channel).1.is_convex = p.is_convex ∧
    ∀ (pts : List Vector2d) (i : Nat),
      cyclicCross (pts.map (fun v => mat.mulVec v)) i = mat.determinant * cyclicCross pts i := by
  refine ⟨?_, cyclicCross_map mat ha⟩
  rw [transform_regular p mat channel (ne_of_gt hd)]
  cases p with
  | mk outlines s =>
    match outlines with
    | [] => rfl
    | [o] =>
      simp only [List.map_cons, List.map_nil]
      rw [is_convex_single, is_convex_single]
      congr 1
      apply decide_eq_decide.mpr
      simp only [List.length_map, cyclicCross_map mat ha]
      constructor
      · intro h j hj
        exact (mul_nonneg_iff_of_pos_left hd).mp (h j hj)
      · intro h j hj
        exact (mul_nonneg_iff_of_pos_left hd).mpr (h j hj)
    | o1 :: o2 :: rest => simp [Polygon2d.is_convex]

/-- The unit square scaled by 2 is still convex. -/
theorem is_convex_transform_invariant_witness :
    ((Polygon2d.ofOutline (squareOutline 1)).transform (Transform2d.scaling 2) []).1.is_convex
      = (Polygon2d.ofOutline (squareOutline 1)).is_convex :=
  (is_convex_transform_invariant (Polygon2d.ofOutline (squareOutline 1))
    (Transform2d.scaling 2) [] ⟨rfl, rfl, rfl⟩
    (by rw [scaling_determinant]; norm_num)).1

/-! ### Convexity and the start vertex -/

theorem rotate_getD (pts : List Vector2d) (k m : Nat) (hm : m < pts.length) (d : Vector2d) :
    (pts.rotate k).getD m d = pts.getD ((m + k) % pts.length) d := by
  rw [List.getD_eq_getElem?_getD, List.getD_eq_getElem?_getD, List.getElem?_rotate hm]

theorem cyclicCross_rotate (pts : List Vector2d) (k i : Nat) :
    cyclicCross (pts.rotate k) i = cyclicCross pts (i + k) := by
  rcases Nat.eq_zero_or_pos pts.length with hN | hN
  · have hnil : pts = [] := List.length_eq_zero.mp hN
    subst hnil
    simp [cyclicCross]
  · have k0 : i % pts.length < pts.length := Nat.mod_lt _ hN
    have k1 : (i + 1) % pts.length < pts.length := Nat.mod_lt _ hN
    have k2 : (i + 2) % pts.length < pts.length := Nat.mod_lt _ hN
    have e0 : (i % pts.length + k) % pts.length = (i + k) % pts.length :=
      Nat.mod_add_mod _ _ _
    have e1 : ((i + 1) % pts.length + k) % pts.length = (i + k + 1) % pts.length := by
      rw [Nat.mod_add_mod]
      congr 1
      omega
    have e2 : ((i + 2) % pts.length + k) % pts.length = (i + k + 2) % pts.length := by
      rw [Nat.mod_add_mod]
      congr 1
      omega
    simp only [cyclicCross, List.length_rotate]
    rw [rotate_getD pts k _ k0, rotate_getD pts k _ k1, rotate_getD pts k _ k2, e0, e1, e2]

theorem cyclicCross_mod (pts : List Vector2d) (m : Nat) :
    cyclicCross pts (m % pts.length) = cyclicCross pts m := by
  simp only [cyclicCross, Nat.mod_mod, Nat.mod_add_mod]

theorem exists_rotate_index (N k j : Nat) (hj : j < N) :
    ∃ i, i < N ∧ (i + k) % N = j := by
  have hN : 0 < N := by omega
  refine ⟨(j + (N - k % N)) % N, Nat.mod_lt _ hN, ?_⟩
  rw [Nat.mod_add_mod]
  have hr : k % N < N := Nat.mod_lt _ hN
  have hk : k % N + N * (k / N) = k := Nat.mod_add_div k N
  generalize k % N = r at hr hk ⊢
  generalize k / N = q at hk
  have e : j + (N - r) + k = j + N * (q + 1) := by
    rw [← hk, Nat.mul_add, Nat.mul_one]
    omega
  rw [e, Nat.add_mul_mod_self_left, Nat.mod_eq_of_lt hj]

/-- C18: for every single-outline polygon and every `k`, rotating the vertex list of
the outline cyclically by `k` positions leaves the result of `is_convex()` unchanged. -/
theorem is_convex_rotate_invariant (o : Outline2d) (s : Bool) (k : Nat) :
    Polygon2d.is_convex ⟨[⟨o.vertices.rotate k⟩], s⟩ = Polygon2d.is_convex ⟨[o], s⟩ := by
  rw [is_convex_single, is_convex_single]
  congr 1
  apply decide_eq_decide.mpr
  simp only [List.length_rotate, cyclicCross_rotate]
  constructor
  · intro h j hj
    obtain ⟨i, hi, e⟩ := exists_rotate_index o.vertices.length k j hj
    have h2 := h i hi
    rw [← cyclicCross_mod, e] at h2
    exact h2
  · intro h i hi
    rw [← cyclicCross_mod]
    exact h _ (Nat.mod_lt _ (by omega))

/-! ### Convexity and the winding -/

theorem reverse_getD (pts : List Vector2d) (m : Nat) (hm : m < pts.length) (d : Vector2d) :
    pts.reverse.getD m d = pts.getD (pts.length - 1 - m) d := by
  rw [List.getD_eq_getElem?_getD, List.getD_eq_getElem?_getD, List.getElem?_reverse hm]

theorem mirror_succ (N b : Nat) (hb : b < N) :
    (N - 1 - (b + 1) % N + 1) % N = N - 1 - b := by
  rcases Nat.lt_or_ge (b + 1) N with h | h
  · rw [Nat.mod_eq_of_lt h]
    have e : N - 1 - (b + 1) + 1 = N - 1 - b := by omega
    rw [e]
    exact Nat.mod_eq_of_lt (by omega)
  · have e : b + 1 = N := by omega
    rw [e, Nat.mod_self]
    have e2 : N - 1 - 0 + 1 = N := by omega
    rw [e2, Nat.mod_self]
    omega

theorem cyclicCross_reverse (pts : List Vector2d) (i : Nat) (hi : i < pts.length) :
    cyclicCross pts.reverse (pts.length - 1 - (i + 2) % pts.length) = -cyclicCross pts i := by
  have hN : 0 < pts.length := by omega
  have hb : (i + 1) % pts.length < pts.length := Nat.mod_lt _ hN
  have hc : (i + 2) % pts.length < pts.length := Nat.mod_lt _ hN
  have hcb : (i + 2) % pts.length = ((i + 1) % pts.length + 1) % pts.length := by
    rw [Nat.mod_add_mod]
  have hj : pts.length - 1 - (i + 2) % pts.length < pts.length := by omega
  have j0 : (pts.length - 1 - (i + 2) % pts.length) % pts.length
      = pts.length - 1 - (i + 2) % pts.length := Nat.mod_eq_of_lt hj
  have j1 : (pts.length - 1 - (i + 2) % pts.length + 1) % pts.length
      = pts.length - 1 - (i + 1) % pts.length := by
    rw [hcb]
    exact mirror_succ _ _ hb
  have j2 : (pts.length - 1 - (i + 2) % pts.length + 2) % pts.length
      = pts.length - 1 - i := by
    have e : pts.length - 1 - (i + 2) % pts.length + 2
        = (pts.length - 1 - (i + 2) % pts.length + 1) + 1 := rfl
    rw [e, ← Nat.mod_add_mod, j1]
    exact mirror_succ _ _ hi
  have r0 : pts.length - 1 - (pts.length - 1 - (i + 2) % pts.length) = (i + 2) % pts.length := by
    omega
  have r1 : pts.length - 1 - (pts.length - 1 - (i + 1) % pts.length) = (i + 1) % pts.length := by
    omega
  have r2 : pts.length - 1 - (pts.length - 1 - i) = i % pts.length := by
    rw [Nat.mod_eq_of_lt hi]
    omega
  simp only [cyclicCross, List.length_reverse]
  rw [j0, j1, j2, reverse_getD pts _ hj, reverse_getD pts _ (by omega),
    reverse_getD pts _ (by omega), r0, r1, r2]
  ring

/-- C16: for every single-outline polygon with at least one strictly counter-clockwise
turn (a cyclic cross product greater than 0), the polygon with the vertex order of
the outline reversed is not convex for `is_convex()`; so every outline whose turns
are all strictly counter-clockwise is reported as not convex when listed clockwise. -/
theorem is_convex_reverse_false (o : Outline2d) (s : Bool) :
    ((∃ i, i < o.vertices.length ∧ 0 < cyclicCross o.vertices i) →
      Polygon2d.is_convex ⟨[⟨o.vertices.reverse⟩], s⟩ = some false) ∧
    (0 < o.vertices.length → (∀ i, i < o.vertices.length → 0 < cyclicCross o.vertices i) →
      Polygon2d.is_convex ⟨[⟨o.vertices.reverse⟩], s⟩ = some false) := by
  have key : (∃ i, i < o.vertices.length ∧ 0 < cyclicCross o.vertices i) →
      Polygon2d.is_convex ⟨[⟨o.vertices.reverse⟩], s⟩ = some false := by
    rintro ⟨i, hi, hpos⟩
    rw [is_convex_single]
    simp only [Option.some.injEq, decide_eq_false_iff_not, List.length_reverse]
    intro hall
    have hN : 0 < o.vertices.length := by omega
    have hc : (i + 2) % o.vertices.length < o.vertices.length := Nat.mod_lt _ hN
    have h := hall (o.vertices.length - 1 - (i + 2) % o.vertices.length) (by omega)
    rw [cyclicCross_reverse o.vertices i hi] at h
    linarith
  exact ⟨key, fun hN hall => key ⟨0, hN, hall 0 hN⟩⟩

/-- The unit square is convex as listed; listed clockwise it is reported as not
convex. -/
theorem is_convex_reverse_false_witness :
    Polygon2d.is_convex ⟨[⟨(squareOutline 1).vertices.reverse⟩], true⟩ = some false :=
  (is_convex_reverse_false (squareOutline 1) true).1
    ⟨0, by simp [squareOutline], by simp [cyclicCross, squareOutline]⟩

/-! ### Rounded arithmetic -/

theorem determinantR_id (m : Transform2d) : m.determinantR id = m.determinant := rfl

theorem mulVecR_id (m : Transform2d) (v : Vector2d) : m.mulVecR id v = m.mulVec v := rfl

theorem transformR_id (p : Polygon2d) (mat : Transform2d) (channel : List Message) :
    p.transformR id mat channel = p.transform mat channel := rfl

theorem sizesR_id (bbox : BoundingBox) : bbox.sizesR id = bbox.sizes := by
  cases bbox <;> rfl

theorem rdiv_id (a : ℚ) (b : Option ℚ) : rdiv id a b = ddiv a b := by
  cases b <;> rfl

theorem resize_newscaleR_id (bbox : BoundingBox) (newsize : Vector2d) (autosize : BoolVector2) :
    resize_newscaleR id bbox newsize autosize = resize_newscale bbox newsize autosize := by
  simp only [resize_newscaleR, resize_newscale, resize_ratioR, resize_ratio, rdiv_id,
    BoundingBox.sizeR, BoundingBox.size, sizesR_id]

theorem resizeR_id (p : Polygon2d) (newsize : Vector2d) (autosize : BoolVector2)
    (channel : List Message) :
    p.resizeR id newsize autosize channel = p.resize newsize autosize channel := by
  simp only [Polygon2d.resizeR, Polygon2d.resize, resize_newscaleR_id, transformR_id]

theorem bitLengthAux_zero (fuel : Nat) : bitLengthAux fuel 0 = 0 := by
  cases fuel <;> simp [bitLengthAux]

theorem bitLengthAux_bounds (fuel n : Nat) (hn : 0 < n) (hf : n ≤ fuel) :
    2 ^ (bitLengthAux fuel n - 1) ≤ n ∧ n < 2 ^ bitLengthAux fuel n := by
  induction fuel generalizing n with
  | zero => omega
  | succ fuel ih =>
    have hn0 : n ≠ 0 := by omega
    simp only [bitLengthAux, if_neg hn0, Nat.add_sub_cancel]
    rcases Nat.eq_zero_or_pos (n / 2) with h | h
    · have h1 : n = 1 := by omega
      rw [h, bitLengthAux_zero]
      subst h1
      simp
    · obtain ⟨h1, h2⟩ := ih (n / 2) h (by omega)
      have hk : 0 < bitLengthAux fuel (n / 2) := by
        by_contra hc
        have : bitLengthAux fuel (n / 2) = 0 := by omega
        rw [this] at h2
        simp at h2
        omega
      obtain ⟨k, hk2⟩ : ∃ k, bitLengthAux fuel (n / 2) = k + 1 := ⟨_, (Nat.sub_add_cancel hk).symm⟩
      rw [hk2] at h1 h2 ⊢
      simp only [Nat.add_sub_cancel] at h1
      have e1 : 2 ^ (k + 1) = 2 * 2 ^ k := by ring
      have e2 : 2 ^ (k + 1 + 1) = 2 * (2 * 2 ^ k) := by ring
      rw [e1] at h2 ⊢
      rw [e2]
      constructor <;> omega

theorem bitLength_bounds (n : Nat) (hn : 0 < n) :
    2 ^ (bitLength n - 1) ≤ n ∧ n < 2 ^ (bitLength n - 1 + 1) := by
  obtain ⟨h1, h2⟩ := bitLengthAux_bounds n n hn le_rfl
  have hk : 0 < bitLengthAux n n := by
    by_contra hc
    have : bitLengthAux n n = 0 := by omega
    rw [this] at h2
    simp at h2
    omega
  unfold bitLength
  rw [Nat.sub_add_cancel hk]
  exact ⟨h1, h2⟩

theorem roundNearestEven_error (p q : Nat) (hq : 0 < q) :
    |(p : ℚ) / q - (roundNearestEven p q : ℚ)| ≤ 1 / 2 := by
  have hq' : (0 : ℚ) < q := by exact_mod_cast hq
  have hdm : (p : ℚ) = q * (p / q : ℕ) + (p % q : ℕ) := by
    exact_mod_cast (Nat.div_add_mod p q).symm
  have hr : p % q < q := Nat.mod_lt _ hq
  have hr' : ((p % q : ℕ) : ℚ) < q := by exact_mod_cast hr
  have hr0 : (0 : ℚ) ≤ ((p % q : ℕ) : ℚ) := by positivity
  have key : (p : ℚ) / q = (p / q : ℕ) + ((p % q : ℕ) : ℚ) / q := by
    rw [hdm]
    field_simp
    ring
  rw [abs_le]
  unfold roundNearestEven
  simp only
  split_ifs with h1 h2 h3
  · have h1' : 2 * ((p % q : ℕ) : ℚ) < q := by exact_mod_cast h1
    rw [key]
    constructor
    · have : 0 ≤ ((p % q : ℕ) : ℚ) / q := by positivity
      linarith
    · have : ((p % q : ℕ) : ℚ) / q ≤ 1 / 2 := by
        rw [div_le_iff₀ hq']
        linarith
      linarith
  · have h2' : (q : ℚ) < 2 * ((p % q : ℕ) : ℚ) := by exact_mod_cast h2
    rw [key]
    push_cast
    have ha : ((p % q : ℕ) : ℚ) / q < 1 := by
      rw [div_lt_iff₀ hq']
      linarith
    have hb : 1 / 2 ≤ ((p % q : ℕ) : ℚ) / q := by
      rw [le_div_iff₀ hq']
      linarith
    constructor <;> linarith
  · have he : 2 * (p % q) = q := by omega
    have he' : 2 * ((p % q : ℕ) : ℚ) = q := by exact_mod_cast he
    have hb : ((p % q : ℕ) : ℚ) / q = 1 / 2 := by
      rw [div_eq_iff (ne_of_gt hq')]
      linarith
    rw [key, hb]
    constructor <;> linarith
  · have he : 2 * (p % q) = q := by omega
    have he' : 2 * ((p % q : ℕ) : ℚ) = q := by exact_mod_cast he
    have hb : ((p % q : ℕ) : ℚ) / q = 1 / 2 := by
      rw [div_eq_iff (ne_of_gt hq')]
      linarith
    rw [key, hb]
    push_cast
    constructor <;> linarith

theorem floorLog2_bounds (n d : Nat) (hn : 0 < n) (hd : 0 < d) :
    (2 : ℚ) ^ (floorLog2 n d) ≤ (n : ℚ) / d ∧ (n : ℚ) / d < (2 : ℚ) ^ (floorLog2 n d + 1) := by
  obtain ⟨na, nb⟩ := bitLength_bounds n hn
  obtain ⟨da, db⟩ := bitLength_bounds d hd
  have hd' : (0 : ℚ) < d := by exact_mod_cast hd
  have na' : (2 : ℚ) ^ (bitLength n - 1) ≤ n := by exact_mod_cast na
  have nb' : (n : ℚ) < 2 ^ (bitLength n - 1 + 1) := by exact_mod_cast nb
  have da' : (2 : ℚ) ^ (bitLength d - 1) ≤ d := by exact_mod_cast da
  have db' : (d : ℚ) < 2 ^ (bitLength d - 1 + 1) := by exact_mod_cast db
  have h2 : (0 : ℚ) < 2 := by norm_num
  have pa : (0 : ℚ) < 2 ^ (bitLength n - 1) := by positivity
  have pb : (0 : ℚ) < 2 ^ (bitLength d - 1) := by positivity
  have z1 : (2 : ℚ) ^ ((bitLength n - 1 : ℕ) - (bitLength d - 1 : ℕ) : ℤ)
      = 2 ^ (bitLength n - 1) / 2 ^ (bitLength d - 1) := by
    rw [zpow_sub₀ (ne_of_gt h2), zpow_natCast, zpow_natCast]
  unfold floorLog2
  simp only
  split_ifs with h
  · have h' : (d : ℚ) * 2 ^ (bitLength n - 1) ≤ n * 2 ^ (bitLength d - 1) := by
      exact_mod_cast h
    constructor
    · rw [z1, div_le_div_iff₀ pb hd']
      linarith
    · rw [zpow_add_one₀ (ne_of_gt h2), z1, div_lt_iff₀ hd']
      have e : (2 : ℚ) ^ (bitLength n - 1) / 2 ^ (bitLength d - 1) * 2 * d
          = 2 ^ (bitLength n - 1 + 1) * (d / 2 ^ (bitLength d - 1)) := by
        rw [pow_succ]
        field_simp
      rw [e]
      have : (1 : ℚ) ≤ d / 2 ^ (bitLength d - 1) := by
        rw [le_div_iff₀ pb]
        linarith
      nlinarith [pow_pos h2 (bitLength n - 1 + 1)]
  · have h' : (n : ℚ) * 2 ^ (bitLength d - 1) < d * 2 ^ (bitLength n - 1) := by
      have := not_le.mp h
      exact_mod_cast this
    have z2 : (2 : ℚ) ^ (((bitLength n - 1 : ℕ) : ℤ) - (bitLength d - 1 : ℕ) - 1 + 1)
        = 2 ^ (bitLength n - 1) / 2 ^ (bitLength d - 1) := by
      rw [sub_add_cancel, z1]
    constructor
    · rw [zpow_sub_one₀ (ne_of_gt h2), z1, le_div_iff₀ hd']
      have e : (2 : ℚ) ^ (bitLength n - 1) / 2 ^ (bitLength d - 1) * 2⁻¹ * d
          = 2 ^ (bitLength n - 1) * (d / 2 ^ (bitLength d - 1 + 1)) := by
        field_simp
        ring
      rw [e]
      have : d / (2 : ℚ) ^ (bitLength d - 1 + 1) ≤ 1 := by
        rw [div_le_iff₀ (by positivity)]
        linarith
      nlinarith
    · rw [z2, div_lt_div_iff₀ hd' pb]
      linarith

theorem roundMagnitude_scaled (n d : Nat) (hd : 0 < d) :
    ∃ r : ℕ, roundMagnitude n d = r * (2 : ℚ) ^ (max (floorLog2 n d - 52) (-1074)) ∧
      |(n : ℚ) / d / (2 : ℚ) ^ (max (floorLog2 n d - 52) (-1074)) - r| ≤ 1 / 2 := by
  have hd' : (0 : ℚ) < d := by exact_mod_cast hd
  have h2 : (2 : ℚ) ≠ 0 := by norm_num
  unfold roundMagnitude
  simp only
  generalize max (floorLog2 n d - 52) (-1074) = s
  split_ifs with hs
  · obtain ⟨t, rfl⟩ := Int.eq_ofNat_of_zero_le hs
    refine ⟨roundNearestEven n (d * 2 ^ t), ?_, ?_⟩
    · rw [Rat.mkRat_eq_div]
      simp [zpow_natCast]
    · have h := roundNearestEven_error n (d * 2 ^ t) (by positivity)
      have e : (n : ℚ) / d / (2 : ℚ) ^ ((t : ℕ) : ℤ) = (n : ℚ) / ((d * 2 ^ t : ℕ) : ℚ) := by
        rw [zpow_natCast]
        push_cast
        rw [div_div]
      rw [e]
      exact h
  · have hs' : 0 ≤ -s := by omega
    obtain ⟨t, ht⟩ := Int.eq_ofNat_of_zero_le hs'
    have hst : s = -(t : ℤ) := by omega
    subst hst
    have ht2 : (- -(t : ℤ)).toNat = t := by simp
    rw [ht2]
    refine ⟨roundNearestEven (n * 2 ^ t) d, ?_, ?_⟩
    · rw [Rat.mkRat_eq_div, zpow_neg, zpow_natCast]
      push_cast
      rw [div_eq_mul_inv]
    · have h := roundNearestEven_error (n * 2 ^ t) d hd
      have e : (n : ℚ) / d / (2 : ℚ) ^ (-(t : ℤ)) = ((n * 2 ^ t : ℕ) : ℚ) / d := by
        rw [zpow_neg, zpow_natCast]
        push_cast
        field_simp
      rw [e]
      exact h

theorem nat_le_of_lt_add_half (r k : ℕ) (h : (r : ℚ) < k + 1 / 2) : r ≤ k := by
  by_contra hc
  have h1 : k + 1 ≤ r := by omega
  have h2 : ((k + 1 : ℕ) : ℚ) ≤ r := by exact_mod_cast h1
  push_cast at h2
  linarith

theorem nat_ge_of_sub_half_le (r k : ℕ) (h : (k : ℚ) - 1 / 2 ≤ r) : k ≤ r := by
  by_contra hc
  have h1 : r + 1 ≤ k := by omega
  have h2 : ((r + 1 : ℕ) : ℚ) ≤ k := by exact_mod_cast h1
  push_cast at h2
  linarith

theorem roundMagnitude_nearest (n d : Nat) (hn : 0 < n) (hd : 0 < d) :
    ∃ (m : ℕ) (s : ℤ), -1074 ≤ s ∧ roundMagnitude n d = m * (2 : ℚ) ^ s ∧
      |(n : ℚ) / d - roundMagnitude n d| ≤ (2 : ℚ) ^ s / 2 ∧
      m ≤ 2 ^ 53 ∧ (s = -1074 ∨ 2 ^ 52 ≤ m) := by
  obtain ⟨r, hr, herr⟩ := roundMagnitude_scaled n d hd
  obtain ⟨lo, hi⟩ := floorLog2_bounds n d hn hd
  have h2 : (0 : ℚ) < 2 := by norm_num
  have hs1 : -1074 ≤ max (floorLog2 n d - 52) (-1074) := le_max_right _ _
  have hs2 : floorLog2 n d - 52 ≤ max (floorLog2 n d - 52) (-1074) := le_max_left _ _
  have hcase : max (floorLog2 n d - 52) (-1074) = -1074 ∨
      max (floorLog2 n d - 52) (-1074) = floorLog2 n d - 52 := by
    rcases le_total (floorLog2 n d - 52) (-1074) with h | h
    · exact Or.inl (max_eq_right h)
    · exact Or.inr (max_eq_left h)
  generalize max (floorLog2 n d - 52) (-1074) = s at hr herr hs1 hs2 hcase
  have ps : (0 : ℚ) < 2 ^ s := zpow_pos h2 s
  have yhi : (n : ℚ) / d / 2 ^ s < 2 ^ (53 : ℕ) := by
    rw [div_lt_iff₀ ps]
    have e : (2 : ℚ) ^ (53 : ℕ) * 2 ^ s = 2 ^ (s + 53) := by
      rw [zpow_add₀ (ne_of_gt h2), mul_comm]
      norm_cast
    rw [e]
    exact lt_of_lt_of_le hi (zpow_le_zpow_right₀ (by norm_num) (by omega))
  rw [abs_le] at herr
  refine ⟨r, s, hs1, hr, ?_, ?_, ?_⟩
  · rw [hr]
    have e : (n : ℚ) / d - r * 2 ^ s = ((n : ℚ) / d / 2 ^ s - r) * 2 ^ s := by
      field_simp
      ring
    have habs : |(n : ℚ) / d / 2 ^ s - r| ≤ 1 / 2 := abs_le.mpr herr
    rw [e, abs_mul, abs_of_pos ps]
    calc |(n : ℚ) / d / 2 ^ s - r| * 2 ^ s ≤ 1 / 2 * 2 ^ s :=
          mul_le_mul_of_nonneg_right habs (le_of_lt ps)
      _ = 2 ^ s / 2 := by ring
  · apply nat_le_of_lt_add_half
    push_cast
    linarith [herr.1]
  · rcases hcase with h | h
    · exact Or.inl h
    · right
      apply nat_ge_of_sub_half_le
      push_cast
      have ylo : (2 : ℚ) ^ (52 : ℕ) ≤ (n : ℚ) / d / 2 ^ s := by
        rw [le_div_iff₀ ps]
        have e : (2 : ℚ) ^ (52 : ℕ) * 2 ^ s = 2 ^ (floorLog2 n d) := by
          rw [h, zpow_sub₀ (ne_of_gt h2)]
          norm_cast
          field_simp
        rw [e]
        exact lo
      linarith [herr.2]

theorem fl64_nearest (x : ℚ) :
    ∃ (m : ℕ) (s : ℤ), -1074 ≤ s ∧ |fl64 x| = m * (2 : ℚ) ^ s ∧
      |x - fl64 x| ≤ (2 : ℚ) ^ s / 2 ∧ m ≤ 2 ^ 53 ∧ (s = -1074 ∨ 2 ^ 52 ≤ m) := by
  have hden : 0 < x.den := x.den_pos
  have hx : (x.num : ℚ) / x.den = x := Rat.num_div_den x
  unfold fl64
  split_ifs with h0 hneg
  · refine ⟨0, -1074, le_rfl, by simp, ?_, by norm_num, Or.inl rfl⟩
    have hz : x = 0 := Rat.zero_of_num_zero h0
    rw [hz, sub_zero, abs_zero]
    positivity
  · have hn : 0 < x.num.natAbs := Int.natAbs_pos.mpr h0
    obtain ⟨m, s, h1, h2, h3, h4, h5⟩ := roundMagnitude_nearest x.num.natAbs x.den hn hden
    have hpos : 0 ≤ roundMagnitude x.num.natAbs x.den := by
      rw [h2]
      positivity
    have hz : (x.num.natAbs : ℤ) = -x.num := Int.ofNat_natAbs_of_nonpos (le_of_lt hneg)
    have hq : (x.num.natAbs : ℚ) = -(x.num : ℚ) := by
      rw [← Int.cast_natCast, hz, Int.cast_neg]
    have hxa : (x.num.natAbs : ℚ) / x.den = -x := by
      rw [hq, neg_div, hx]
    rw [hxa] at h3
    generalize roundMagnitude x.num.natAbs x.den = R at h2 h3 hpos ⊢
    refine ⟨m, s, h1, ?_, ?_, h4, h5⟩
    · rw [abs_neg, abs_of_nonneg hpos, h2]
    · have e : x - -R = -(-x - R) := by ring
      rw [e, abs_neg]
      exact h3
  · have hp : 0 ≤ x.num := by omega
    have hn : 0 < x.num.natAbs := Int.natAbs_pos.mpr h0
    obtain ⟨m, s, h1, h2, h3, h4, h5⟩ := roundMagnitude_nearest x.num.natAbs x.den hn hden
    have hpos : 0 ≤ roundMagnitude x.num.natAbs x.den := by
      rw [h2]
      positivity
    have hz : (x.num.natAbs : ℤ) = x.num := Int.natAbs_of_nonneg hp
    have hq : (x.num.natAbs : ℚ) = (x.num : ℚ) := by
      rw [← Int.cast_natCast, hz]
    have hxa : (x.num.natAbs : ℚ) / x.den = x := by
      rw [hq, hx]
    rw [hxa] at h3
    generalize roundMagnitude x.num.natAbs x.den = R at h2 h3 hpos ⊢
    exact ⟨m, s, h1, by rw [abs_of_nonneg hpos, h2], h3, h4, h5⟩

theorem fl64_known_values :
    fl64 0 = 0 ∧ fl64 1 = 1 ∧ fl64 (-3) = -3 ∧
    fl64 (1 / 10) = 3602879701896397 / 36028797018963968 ∧
    fl64 (1 / 3) = 6004799503160661 / 18014398509481984 ∧
    fl64 (1 + 1 / 2 ^ 53) = 1 ∧
    fl64 (1 + 3 / 2 ^ 53) = 1 + 1 / 2 ^ 51 ∧
    fl64 (1 / 2 ^ 1074) = 1 / 2 ^ 1074 ∧
    fl64 (1 / 2 ^ 1075) = 0 ∧
    fl64 (3 / 2 ^ 1075) = 2 / 2 ^ 1074 := by
  decide!

/-- C6, as stated, fails in binary64: for the unit square with
`newsize = (2^-600, 0)` and `autosize = (false, true)`, `resize` computes the factor
`2^-600` for both axes, the determinant of its matrix underflows to 0, and the polygon
is not scaled but removed, with a warning. -/
theorem resize_binary64_autosize_removed :
    (Polygon2d.ofOutline (squareOutline 1)).getBoundingBox.sizesR fl64 = some ⟨1, 1, 0⟩ ∧
    resize_newscaleR fl64 (Polygon2d.ofOutline (squareOutline 1)).getBoundingBox
      ⟨1 / 2 ^ 600, 0⟩ ⟨false, true⟩ = some ⟨1 / 2 ^ 600, 1 / 2 ^ 600⟩ ∧
    (resize_matrix ⟨1 / 2 ^ 600, 1 / 2 ^ 600⟩).determinantR fl64 = 0 ∧
    (Polygon2d.ofOutline (squareOutline 1)).resizeR fl64 ⟨1 / 2 ^ 600, 0⟩ ⟨false, true⟩ []
      = some (⟨[], true⟩, [removalWarning]) := by
  decide!

/-- C20, as stated, fails in binary64: for the unit square and
`newsize = (2^-600, 2^-600)` both factors are `2^-600 > 0`, yet the determinant
underflows to 0 and the polygon is removed with a warning; for the square of side
`2^600` and the same `newsize` the factors themselves underflow to 0. -/
theorem resize_binary64_annihilates :
    resize_newscaleR fl64 (Polygon2d.ofOutline (squareOutline 1)).getBoundingBox
      ⟨1 / 2 ^ 600, 1 / 2 ^ 600⟩ ⟨false, false⟩ = some ⟨1 / 2 ^ 600, 1 / 2 ^ 600⟩ ∧
    (Polygon2d.ofOutline (squareOutline 1)).resizeR fl64 ⟨1 / 2 ^ 600, 1 / 2 ^ 600⟩
      ⟨false, false⟩ [] = some (⟨[], true⟩, [removalWarning]) ∧
    (Polygon2d.ofOutline (squareOutline (2 ^ 600))).getBoundingBox.sizesR fl64
      = some ⟨2 ^ 600, 2 ^ 600, 0⟩ ∧
    resize_newscaleR fl64 (Polygon2d.ofOutline (squareOutline (2 ^ 600))).getBoundingBox
      ⟨1 / 2 ^ 600, 1 / 2 ^ 600⟩ ⟨false, false⟩ = some ⟨0, 0⟩ := by
  decide!

/-! ### Exact arithmetic: the amended claims -/

/-- C6, amended: over exact arithmetic, for a polygon with strictly positive
bounding-box extents, when axis `k` has a strictly positive target and the other axis
has target 0 with autosize requested on it, `resize` scales both axes by the same
factor target/current of axis `k`; and, in binary64 as well, the unit square with
`resize(newsize = (2, 0), autosize = (false, true))` becomes the 2 by 2 square. -/
theorem resize_autosize_uniform (p : Polygon2d) (newsize : Vector2d) (autosize : BoolVector2)
    (channel : List Message) (sz : Vector3d) (hs : p.getBoundingBox.sizesR id = some sz)
    (hx : 0 < sz.coeff 0) (hy : 0 < sz.coeff 1) (k : Fin 2) (hk : 0 < newsize.coeff k)
    (ho : newsize.coeff (otherAxis k) = 0) (ha : autosize.coeff (otherAxis k) = true) :
    resize_newscaleR id p.getBoundingBox newsize autosize
      = some ⟨newsize.coeff k / sz.coeff k, newsize.coeff k / sz.coeff k⟩ ∧
    p.resizeR id newsize autosize channel
      = some (p.scaled (newsize.coeff k / sz.coeff k) (newsize.coeff k / sz.coeff k),
          channel) ∧
    (Polygon2d.ofOutline (squareOutline 1)).resizeR fl64 ⟨2, 0⟩ ⟨false, true⟩ []
      = some (Polygon2d.ofOutline (squareOutline 2), []) := by
  rw [sizesR_id] at hs
  rw [resize_newscaleR_id, resizeR_id]
  have h := resize_exact_autosize_uniform p newsize autosize channel sz hs hx hy k hk ho ha
  exact ⟨h.1, h.2, by decide!⟩

/-- Over exact arithmetic the unit square with
`resize(newsize = (2, 0), autosize = (false, true))` becomes the 2 by 2 square. -/
theorem resize_autosize_uniform_witness :
    (Polygon2d.ofOutline (squareOutline 1)).resizeR id ⟨2, 0⟩ ⟨false, true⟩ []
      = some (Polygon2d.ofOutline (squareOutline 2), []) := by
  have h := (resize_autosize_uniform (Polygon2d.ofOutline (squareOutline 1)) ⟨2, 0⟩
    ⟨false, true⟩ [] ⟨1, 1, 0⟩ ((sizesR_id _).trans (sizes_square 1 (by norm_num)))
    (by norm_num [Vector3d.coeff]) (by norm_num [Vector3d.coeff]) 0
    (by norm_num [Vector2d.coeff]) rfl rfl).2.1
  rw [h, scaled_square]
  norm_num [Vector2d.coeff, Vector3d.coeff]

/-- C20, amended: over exact arithmetic, for a polygon whose bounding box has strictly
positive extent on both axes, for every `newsize` and every `autosize`, both scale
factors computed by `resize` are strictly positive, the matrix it builds has a
non-zero determinant, no warning is emitted, and the number of outlines and of
vertices of each outline is unchanged; when both targets are not positive the polygon
is left exactly unchanged. -/
theorem resize_keeps_geometry (p : Polygon2d) (newsize : Vector2d) (autosize : BoolVector2)
    (channel : List Message) (sz : Vector3d) (hs : p.getBoundingBox.sizesR id = some sz)
    (hx : 0 < sz.coeff 0) (hy : 0 < sz.coeff 1) :
    ∃ ns p2, resize_newscaleR id p.getBoundingBox newsize autosize = some ns ∧
      0 < ns.coeff 0 ∧ 0 < ns.coeff 1 ∧
      (resize_matrix ns).determinantR id ≠ 0 ∧
      p.resizeR id newsize autosize channel = some (p2, channel) ∧
      p2.theoutlines.length = p.theoutlines.length ∧
      (∀ i, p2.vertexCount i = p.vertexCount i) ∧
      (¬ 0 < newsize.coeff 0 → ¬ 0 < newsize.coeff 1 → p2 = p) := by
  rw [sizesR_id] at hs
  simp only [resize_newscaleR_id, resizeR_id, determinantR_id]
  exact resize_exact_keeps_geometry p newsize autosize channel sz hs hx hy

/-- Over exact arithmetic the unit square resized with `newsize = (0, -1)` and autosize
on both axes is left unchanged and no warning is emitted. -/
theorem resize_keeps_geometry_witness :
    (Polygon2d.ofOutline (squareOutline 1)).resizeR id ⟨0, -1⟩ ⟨true, true⟩ []
      = some (Polygon2d.ofOutline (squareOutline 1), []) := by
  obtain ⟨ns, p2, _, _, _, _, hr, _, _, hu⟩ :=
    resize_keeps_geometry (Polygon2d.ofOutline (squareOutline 1)) ⟨0, -1⟩ ⟨true, true⟩ []
      ⟨1, 1, 0⟩ ((sizesR_id _).trans (sizes_square 1 (by norm_num)))
      (by norm_num [Vector3d.coeff]) (by norm_num [Vector3d.coeff])
  rw [hr, hu (by norm_num [Vector2d.coeff]) (by norm_num [Vector2d.coeff])]

end OpenSCAD
